import Mathlib

/-!
Verification development for the examples test harness of the
cdk-github-runners repository (source file: examples/test-examples.py).

The Python source is shallowly embedded as executable Lean definitions:

* external process invocations are modelled by passing their observable
  outcome (exit code, captured output, or a start failure) as an explicit
  argument;
* the filesystem is modelled by passing directory listings, glob results
  and file contents as explicit arguments;
* the JSON normalization pipeline (json.loads followed by
  json.dumps(data, sort_keys := True, indent := 2)) is modelled by a real
  JSON value type, a recursive-descent parser and a canonical
  pretty-printer.  JSON numbers are modelled as integers and string
  escaping covers the quote and backslash characters; these restrictions
  narrow the set of parseable documents but do not change the status of
  any statement proved below;
* Python string comparison (used by sorted and by sort_keys) is code-point
  lexicographic order, embedded below as charListLe / strLe.

All definitions are computable and reduce inside the kernel, so witnesses
can be checked on concrete inputs by rfl or decide.
-/

namespace TestExamples

/-! ## Code-point lexicographic string order (Python string comparison) -/

def charListLe : List Char → List Char → Bool
  | [], _ => true
  | _ :: _, [] => false
  | a :: as, b :: bs =>
    if a.toNat < b.toNat then true
    else if b.toNat < a.toNat then false
    else charListLe as bs

def strLe (a b : String) : Bool := charListLe a.data b.data

theorem charListLe_total : ∀ a b : List Char, charListLe a b = true ∨ charListLe b a = true
  | [], _ => Or.inl rfl
  | _ :: _, [] => Or.inr rfl
  | a :: as, b :: bs => by
    by_cases h1 : a.toNat < b.toNat
    · exact Or.inl (by simp [charListLe, h1])
    · by_cases h2 : b.toNat < a.toNat
      · exact Or.inr (by simp [charListLe, h1, h2])
      · rcases charListLe_total as bs with h | h
        · exact Or.inl (by simp [charListLe, h1, h2, h])
        · exact Or.inr (by simp [charListLe, h1, h2, h])

theorem char_eq_of_toNat_eq {a b : Char} (h : a.toNat = b.toNat) : a = b := by
  apply Char.ext
  apply UInt32.eq_of_toBitVec_eq
  have := congrArg (fun n => BitVec.ofNat 32 n) h
  simpa [Char.toNat, UInt32.toNat] using this

theorem charListLe_trans : ∀ a b c : List Char,
    charListLe a b = true → charListLe b c = true → charListLe a c = true
  | [], _, _, _, _ => rfl
  | a :: as, [], _, h, _ => by simp [charListLe] at h
  | a :: as, b :: bs, [], _, h => by simp [charListLe] at h
  | a :: as, b :: bs, c :: cs, h1, h2 => by
    simp only [charListLe] at h1 h2 ⊢
    by_cases hab : a.toNat < b.toNat
    · by_cases hbc : b.toNat < c.toNat
      · have : a.toNat < c.toNat := Nat.lt_trans hab hbc
        simp [this]
      · by_cases hcb : c.toNat < b.toNat
        · simp [hbc, hcb] at h2
        · have : a.toNat < c.toNat := by omega
          simp [this]
    · by_cases hba : b.toNat < a.toNat
      · simp [hab, hba] at h1
      · simp only [hab, hba, if_false] at h1
        by_cases hbc : b.toNat < c.toNat
        · have : a.toNat < c.toNat := by omega
          simp [this]
        · by_cases hcb : c.toNat < b.toNat
          · simp [hbc, hcb] at h2
          · simp only [hbc, hcb, if_false] at h2
            have hac : ¬ a.toNat < c.toNat := by omega
            have hca : ¬ c.toNat < a.toNat := by omega
            simp only [hac, hca, if_false]
            exact charListLe_trans as bs cs h1 h2

theorem charListLe_antisymm : ∀ a b : List Char,
    charListLe a b = true → charListLe b a = true → a = b
  | [], [], _, _ => rfl
  | [], _ :: _, _, h => by simp [charListLe] at h
  | _ :: _, [], h, _ => by simp [charListLe] at h
  | a :: as, b :: bs, h1, h2 => by
    simp only [charListLe] at h1 h2
    by_cases hab : a.toNat < b.toNat
    · by_cases hba : b.toNat < a.toNat
      · omega
      · simp [hba, hab] at h2
    · by_cases hba : b.toNat < a.toNat
      · simp [hab, hba] at h1
      · have hs : as = bs := by
          apply charListLe_antisymm as bs
          · simpa [hab, hba] using h1
          · simpa [hab, hba] using h2
        have hch : a = b := char_eq_of_toNat_eq (by omega)
        rw [hch, hs]

theorem strLe_total (a b : String) : strLe a b = true ∨ strLe b a = true :=
  charListLe_total a.data b.data

theorem strLe_trans {a b c : String} (h1 : strLe a b = true) (h2 : strLe b c = true) :
    strLe a c = true :=
  charListLe_trans a.data b.data c.data h1 h2

theorem strLe_antisymm {a b : String} (h1 : strLe a b = true) (h2 : strLe b a = true) :
    a = b := by
  have h := charListLe_antisymm a.data b.data h1 h2
  cases a
  cases b
  exact congrArg String.mk h

/-- The relation used by the embedded Python sorted on lists of strings. -/
def strLeRel : String → String → Prop := fun a b => strLe a b = true

instance : DecidableRel strLeRel := fun a b => inferInstanceAs (Decidable (strLe a b = true))

instance : IsTotal String strLeRel := ⟨fun a b => strLe_total a b⟩

instance : IsTrans String strLeRel := ⟨fun _ _ _ h1 h2 => strLe_trans h1 h2⟩

/-- Model of the Python builtin sorted on a list of strings (stable sort under
code-point lexicographic comparison; insertion sort is extensionally equal). -/
def sortedStrings (l : List String) : List String := l.insertionSort strLeRel

theorem sortedStrings_sorted (l : List String) : List.Sorted strLeRel (sortedStrings l) :=
  List.sorted_insertionSort strLeRel l

theorem sortedStrings_perm (l : List String) : (sortedStrings l).Perm l :=
  List.perm_insertionSort strLeRel l

/-! ## JSON values

Model of the Python json module data as used by normalize_json: parsed
documents are null, booleans, numbers (modelled as integers), strings,
arrays, and objects (ordered key / value fields, as produced by the
parser; Python dict insertion semantics keep the first position and the
last value of a duplicated key). -/

mutual
inductive Json where
  | null : Json
  | bool (b : Bool) : Json
  | num (n : Int) : Json
  | str (s : String) : Json
  | arr (items : JsonArr) : Json
  | obj (fields : JsonObj) : Json

inductive JsonArr where
  | nil : JsonArr
  | cons (head : Json) (tail : JsonArr) : JsonArr

inductive JsonObj where
  | nil : JsonObj
  | cons (key : String) (value : Json) (tail : JsonObj) : JsonObj
end

def fieldsToList : JsonObj → List (String × Json)
  | JsonObj.nil => []
  | JsonObj.cons k v fs => (k, v) :: fieldsToList fs

def fieldsOfList : List (String × Json) → JsonObj
  | [] => JsonObj.nil
  | (k, v) :: fs => JsonObj.cons k v (fieldsOfList fs)

def objKeys (fs : JsonObj) : List String := (fieldsToList fs).map Prod.fst

/-- Python dict item assignment: replace the value at an existing key in
place, otherwise append the new key at the end. -/
def objUpdate : JsonObj → String → Json → JsonObj
  | JsonObj.nil, k, v => JsonObj.cons k v JsonObj.nil
  | JsonObj.cons k2 v2 fs, k, v =>
    if k2 = k then JsonObj.cons k2 v fs else JsonObj.cons k2 v2 (objUpdate fs k v)

def objConcat : JsonObj → JsonObj → JsonObj
  | JsonObj.nil, gs => gs
  | JsonObj.cons k v fs, gs => JsonObj.cons k v (objConcat fs gs)

/-! Well-formedness: every object of the value has pairwise distinct keys.
Every value produced by the parser satisfies this (Python dicts cannot
hold a key twice). -/

mutual
def WFJson : Json → Prop
  | Json.null => True
  | Json.bool _ => True
  | Json.num _ => True
  | Json.str _ => True
  | Json.arr xs => WFArr xs
  | Json.obj fs => (objKeys fs).Nodup ∧ WFObj fs

def WFArr : JsonArr → Prop
  | JsonArr.nil => True
  | JsonArr.cons x xs => WFJson x ∧ WFArr xs

def WFObj : JsonObj → Prop
  | JsonObj.nil => True
  | JsonObj.cons _ v fs => WFJson v ∧ WFObj fs
end

/-! ## Canonicalization (the sort_keys := True part of json.dumps) -/

/-- Key order used by json.dumps with sort_keys := True: code-point
lexicographic comparison of the keys. -/
def pairKeyLe : String × Json → String × Json → Prop := fun a b => strLe a.1 b.1 = true

instance : DecidableRel pairKeyLe := fun a b => inferInstanceAs (Decidable (strLe a.1 b.1 = true))

instance : IsTotal (String × Json) pairKeyLe := ⟨fun a b => strLe_total a.1 b.1⟩

instance : IsTrans (String × Json) pairKeyLe := ⟨fun _ _ _ h1 h2 => strLe_trans h1 h2⟩

def sortFields (l : List (String × Json)) : List (String × Json) := l.insertionSort pairKeyLe

mutual
def canon : Json → Json
  | Json.null => Json.null
  | Json.bool b => Json.bool b
  | Json.num n => Json.num n
  | Json.str s => Json.str s
  | Json.arr xs => Json.arr (canonArr xs)
  | Json.obj fs => Json.obj (fieldsOfList (sortFields (fieldsToList (canonObj fs))))

def canonArr : JsonArr → JsonArr
  | JsonArr.nil => JsonArr.nil
  | JsonArr.cons x xs => JsonArr.cons (canon x) (canonArr xs)

def canonObj : JsonObj → JsonObj
  | JsonObj.nil => JsonObj.nil
  | JsonObj.cons k v fs => JsonObj.cons k (canon v) (canonObj fs)
end

/-! ## Serializer (json.dumps with sort_keys := True, indent := 2)

The printer below reproduces the exact textual layout of the Python dump:
empty containers print as two brackets, non-empty containers print one
element per line, indented two extra spaces per nesting level, separators
are a comma plus newline, and a key is followed by a colon and one
space.  Sorting is performed by canon before printing. -/

def indentChars (lvl : Nat) : List Char := List.replicate (2 * lvl) ' '

def escChar (c : Char) : List Char := if c = '"' || c = '\\' then ['\\', c] else [c]

def escChars : List Char → List Char
  | [] => []
  | c :: cs => escChar c ++ escChars cs

def encStr (s : String) : List Char := '"' :: (escChars s.data ++ ['"'])

def digitChar : Nat → Char
  | 0 => '0'
  | 1 => '1'
  | 2 => '2'
  | 3 => '3'
  | 4 => '4'
  | 5 => '5'
  | 6 => '6'
  | 7 => '7'
  | 8 => '8'
  | 9 => '9'
  | _ => '0'

def natDigits : Nat → Nat → List Char
  | 0, _ => []
  | fuel + 1, n => if n < 10 then [digitChar n] else natDigits fuel (n / 10) ++ [digitChar (n % 10)]

/-- Decimal representation of an integer, as Python repr prints it. -/
def intChars : Int → List Char
  | Int.ofNat n => natDigits (n + 1) n
  | Int.negSucc m => '-' :: natDigits (m + 2) (m + 1)

mutual
def printJson : Nat → Json → List Char
  | _, Json.null => ['n', 'u', 'l', 'l']
  | _, Json.bool true => ['t', 'r', 'u', 'e']
  | _, Json.bool false => ['f', 'a', 'l', 's', 'e']
  | _, Json.num n => intChars n
  | _, Json.str s => encStr s
  | _, Json.arr JsonArr.nil => ['[', ']']
  | lvl, Json.arr (JsonArr.cons x xs) =>
    '[' :: '\n' :: (indentChars (lvl + 1) ++ itemsBody (lvl + 1) (JsonArr.cons x xs) ++
      '\n' :: (indentChars lvl ++ [']']))
  | _, Json.obj JsonObj.nil => ['{', '}']
  | lvl, Json.obj (JsonObj.cons k v fs) =>
    '{' :: '\n' :: (indentChars (lvl + 1) ++ fieldsBody (lvl + 1) (JsonObj.cons k v fs) ++
      '\n' :: (indentChars lvl ++ ['}']))

def itemsBody : Nat → JsonArr → List Char
  | _, JsonArr.nil => []
  | lvl, JsonArr.cons x JsonArr.nil => printJson lvl x
  | lvl, JsonArr.cons x (JsonArr.cons y ys) =>
    printJson lvl x ++ ',' :: '\n' :: (indentChars lvl ++ itemsBody lvl (JsonArr.cons y ys))

def fieldsBody : Nat → JsonObj → List Char
  | _, JsonObj.nil => []
  | lvl, JsonObj.cons k v JsonObj.nil => encStr k ++ ':' :: ' ' :: printJson lvl v
  | lvl, JsonObj.cons k v (JsonObj.cons k2 v2 fs) =>
    encStr k ++ ':' :: ' ' :: (printJson lvl v ++
      ',' :: '\n' :: (indentChars lvl ++ fieldsBody lvl (JsonObj.cons k2 v2 fs)))
end

/-! ## Parser (json.loads)

A recursive-descent parser over the character list, with an explicit fuel
argument bounded by the input length; object fields are inserted with
Python dict semantics. -/

def isWsChar (c : Char) : Bool := c = ' ' || c = '\t' || c = '\n' || c = '\r'

def skipWs : List Char → List Char
  | [] => []
  | c :: cs => if isWsChar c then skipWs cs else c :: cs

def parseStrBody : List Char → Option (List Char × List Char)
  | [] => none
  | c :: cs =>
    if c = '"' then some ([], cs)
    else if c = '\\' then
      match cs with
      | [] => none
      | e :: cs2 =>
        if e = '"' || e = '\\' then
          match parseStrBody cs2 with
          | some (s, r) => some (e :: s, r)
          | none => none
        else none
    else
      match parseStrBody cs with
      | some (s, r) => some (c :: s, r)
      | none => none

def parseDigits : List Char → Nat → Nat × List Char
  | [], acc => (acc, [])
  | c :: cs, acc => if c.isDigit then parseDigits cs (acc * 10 + (c.toNat - 48)) else (acc, c :: cs)

mutual
def parseVal : Nat → List Char → Option (Json × List Char)
  | 0, _ => none
  | fuel + 1, cs =>
    match cs with
    | 'n' :: 'u' :: 'l' :: 'l' :: r => some (Json.null, r)
    | 't' :: 'r' :: 'u' :: 'e' :: r => some (Json.bool true, r)
    | 'f' :: 'a' :: 'l' :: 's' :: 'e' :: r => some (Json.bool false, r)
    | '"' :: r =>
      match parseStrBody r with
      | some (s, r1) => some (Json.str (String.mk s), r1)
      | none => none
    | '[' :: r =>
      match skipWs r with
      | [] => none
      | c :: t =>
        if c = ']' then some (Json.arr JsonArr.nil, t)
        else
          match parseItems fuel (c :: t) with
          | some (items, r2) => some (Json.arr items, r2)
          | none => none
    | '{' :: r =>
      match skipWs r with
      | [] => none
      | c :: t =>
        if c = '}' then some (Json.obj JsonObj.nil, t)
        else
          match parseFields fuel (c :: t) JsonObj.nil with
          | some (fs, r2) => some (Json.obj fs, r2)
          | none => none
    | '-' :: c :: r =>
      if c.isDigit then
        let p := parseDigits r (c.toNat - 48)
        some (Json.num (-(Int.ofNat p.1)), p.2)
      else none
    | c :: r =>
      if c.isDigit then
        let p := parseDigits r (c.toNat - 48)
        some (Json.num (Int.ofNat p.1), p.2)
      else none
    | [] => none

def parseItems : Nat → List Char → Option (JsonArr × List Char)
  | 0, _ => none
  | fuel + 1, cs =>
    match parseVal fuel cs with
    | none => none
    | some (v, rest) =>
      match skipWs rest with
      | ',' :: r2 =>
        match parseItems fuel (skipWs r2) with
        | some (items, r3) => some (JsonArr.cons v items, r3)
        | none => none
      | ']' :: r2 => some (JsonArr.cons v JsonArr.nil, r2)
      | _ => none

def parseFields : Nat → List Char → JsonObj → Option (JsonObj × List Char)
  | 0, _, _ => none
  | fuel + 1, cs, acc =>
    match cs with
    | '"' :: r =>
      match parseStrBody r with
      | none => none
      | some (kchars, r1) =>
        match skipWs r1 with
        | ':' :: r2 =>
          match parseVal fuel (skipWs r2) with
          | none => none
          | some (v, r3) =>
            match skipWs r3 with
            | ',' :: r4 => parseFields fuel (skipWs r4) (objUpdate acc (String.mk kchars) v)
            | '}' :: r4 => some (objUpdate acc (String.mk kchars) v, r4)
            | _ => none
        | _ => none
    | _ => none
end

/-- Model of json.loads: parse one value, allowing surrounding whitespace;
any leftover input is an error (which normalize_json turns into the
identity fallback). -/
def loads (s : String) : Option Json :=
  match parseVal (s.data.length + 1) (skipWs s.data) with
  | some (v, rest) => if (skipWs rest).isEmpty then some v else none
  | none => none

/-- Model of json.dumps(data, sort_keys := True, indent := 2). -/
def dumps (v : Json) : String := String.mk (printJson 0 (canon v))

/-- Source translation of normalize_json (test-examples.py lines 121 to
127): parse the string; on success re-serialize canonically, on a parse
error return the input unchanged. -/
def normalize_json (s : String) : String :=
  match loads s with
  | some v => dumps v
  | none => s

/-! ## Template comparison -/

def splitLinesAux : List Char → List Char → List String
  | [], acc => [String.mk acc.reverse]
  | c :: cs, acc => if c = '\n' then String.mk acc.reverse :: splitLinesAux cs [] else splitLinesAux cs (c :: acc)

def splitLines (s : String) : List String := splitLinesAux s.data []

/-- Interface-level model of difflib.unified_diff over the two normalized
texts; no statement below depends on the diff text itself, only on the
matched flag and on the diff being attached to the mismatching example. -/
def unifiedDiffText (a b : String) : String :=
  "--- TypeScript\n+++ Python\n" ++
    String.join ((splitLines a).map (fun l => "-" ++ l ++ "\n")) ++
    String.join ((splitLines b).map (fun l => "+" ++ l ++ "\n"))

/-- Source translation of compare_templates (test-examples.py lines 221 to
238): normalize both templates, report a match on exact equality of the
normal forms, otherwise produce a unified diff. -/
def compare_templates (ts_template py_template : String) : Bool × String :=
  let ts_normalized := normalize_json ts_template
  let py_normalized := normalize_json py_template
  if ts_normalized = py_normalized then (true, "")
  else (false, unifiedDiffText ts_normalized py_normalized)

/-! ## Basic lemmas about the object representation -/

theorem fieldsToList_ofList : ∀ l : List (String × Json), fieldsToList (fieldsOfList l) = l
  | [] => rfl
  | (k, v) :: fs => by simp [fieldsOfList, fieldsToList, fieldsToList_ofList fs]

theorem fieldsOfList_toList : ∀ fs : JsonObj, fieldsOfList (fieldsToList fs) = fs
  | JsonObj.nil => rfl
  | JsonObj.cons k v fs => by simp [fieldsOfList, fieldsToList, fieldsOfList_toList fs]

theorem canonObj_toList : ∀ fs : JsonObj,
    fieldsToList (canonObj fs) = (fieldsToList fs).map (fun p => (p.1, canon p.2))
  | JsonObj.nil => rfl
  | JsonObj.cons k v fs => by simp [canonObj, fieldsToList, canonObj_toList fs]

theorem objKeys_nil : objKeys JsonObj.nil = [] := rfl

theorem objKeys_cons (k : String) (v : Json) (fs : JsonObj) :
    objKeys (JsonObj.cons k v fs) = k :: objKeys fs := rfl

theorem objConcat_keys : ∀ fs gs : JsonObj, objKeys (objConcat fs gs) = objKeys fs ++ objKeys gs
  | JsonObj.nil, gs => rfl
  | JsonObj.cons k v fs, gs => by
    simp [objConcat, objKeys_cons, objConcat_keys fs gs]

theorem objConcat_assoc : ∀ a b c : JsonObj,
    objConcat (objConcat a b) c = objConcat a (objConcat b c)
  | JsonObj.nil, _, _ => rfl
  | JsonObj.cons k v fs, b, c => by simp [objConcat, objConcat_assoc fs b c]

theorem objConcat_nil : ∀ fs : JsonObj, objConcat fs JsonObj.nil = fs
  | JsonObj.nil => rfl
  | JsonObj.cons k v fs => by simp [objConcat, objConcat_nil fs]

theorem objUpdate_keys_mem : ∀ (fs : JsonObj) (k : String) (v : Json),
    k ∈ objKeys fs → objKeys (objUpdate fs k v) = objKeys fs
  | JsonObj.nil, k, v, h => by simp [objKeys_nil] at h
  | JsonObj.cons k2 v2 fs, k, v, h => by
    by_cases hk : k2 = k
    · simp [objUpdate, hk, objKeys_cons]
    · have hmem : k ∈ objKeys fs := by
        rcases (by simpa [objKeys_cons] using h : k = k2 ∨ k ∈ objKeys fs) with h' | h'
        · exact absurd h'.symm hk
        · exact h'
      simp [objUpdate, hk, objKeys_cons, objUpdate_keys_mem fs k v hmem]

theorem objUpdate_fresh : ∀ (fs : JsonObj) (k : String) (v : Json),
    k ∉ objKeys fs → objUpdate fs k v = objConcat fs (JsonObj.cons k v JsonObj.nil)
  | JsonObj.nil, k, v, _ => rfl
  | JsonObj.cons k2 v2 fs, k, v, h => by
    have hk : ¬ k2 = k := by
      intro he
      exact h (by simp [objKeys_cons, he])
    have hmem : k ∉ objKeys fs := fun hm => h (by simp [objKeys_cons, hm])
    simp [objUpdate, hk, objConcat, objUpdate_fresh fs k v hmem]

theorem objUpdate_nodup : ∀ (fs : JsonObj) (k : String) (v : Json),
    (objKeys fs).Nodup → (objKeys (objUpdate fs k v)).Nodup
  | fs, k, v, h => by
    by_cases hm : k ∈ objKeys fs
    · rw [objUpdate_keys_mem fs k v hm]
      exact h
    · rw [objUpdate_fresh fs k v hm, objConcat_keys]
      simp only [objKeys_cons, objKeys_nil]
      simp [List.nodup_append, h, hm]

theorem objUpdate_wf : ∀ (fs : JsonObj) (k : String) (v : Json),
    WFObj fs → WFJson v → WFObj (objUpdate fs k v)
  | JsonObj.nil, k, v, _, hv => by simp [objUpdate, WFObj, hv]
  | JsonObj.cons k2 v2 fs, k, v, hfs, hv => by
    rcases hfs with ⟨hv2, hfs⟩
    by_cases hk : k2 = k
    · simp [objUpdate, hk, WFObj, hv, hfs]
    · simp [objUpdate, hk, WFObj, hv2, objUpdate_wf fs k v hfs hv]

/-! ## The canonical field order is unique on duplicate-free keys -/

def pairKeyLt : String × Json → String × Json → Prop :=
  fun a b => pairKeyLe a b ∧ a.1 ≠ b.1

instance : IsAntisymm (String × Json) pairKeyLt :=
  ⟨fun a b h1 h2 => absurd (strLe_antisymm h1.1 h2.1) h1.2⟩

theorem sorted_strict_of_sorted_nodup {l : List (String × Json)}
    (hs : List.Sorted pairKeyLe l) (hn : (l.map Prod.fst).Nodup) :
    List.Sorted pairKeyLt l := by
  have hne : List.Pairwise (fun a b : String × Json => a.1 ≠ b.1) l :=
    List.pairwise_map.mp hn
  exact hs.and hne

theorem sortedFields_unique {l₁ l₂ : List (String × Json)} (hp : l₁.Perm l₂)
    (hs₁ : List.Sorted pairKeyLe l₁) (hs₂ : List.Sorted pairKeyLe l₂)
    (hn : (l₁.map Prod.fst).Nodup) : l₁ = l₂ := by
  have hn₂ : (l₂.map Prod.fst).Nodup := (hp.map Prod.fst).nodup hn
  exact List.eq_of_perm_of_sorted hp (sorted_strict_of_sorted_nodup hs₁ hn)
    (sorted_strict_of_sorted_nodup hs₂ hn₂)

theorem sortFields_sorted (l : List (String × Json)) : List.Sorted pairKeyLe (sortFields l) :=
  List.sorted_insertionSort pairKeyLe l

theorem sortFields_perm (l : List (String × Json)) : (sortFields l).Perm l :=
  List.perm_insertionSort pairKeyLe l

theorem objKeys_ofList (l : List (String × Json)) : objKeys (fieldsOfList l) = l.map Prod.fst := by
  unfold objKeys
  rw [fieldsToList_ofList]

theorem WFObj_ofList : ∀ l : List (String × Json), (∀ p ∈ l, WFJson p.2) → WFObj (fieldsOfList l)
  | [], _ => trivial
  | (k, v) :: fs, h => by
    refine ⟨h (k, v) (by simp), WFObj_ofList fs ?_⟩
    intro p hp
    exact h p (by simp [hp])

theorem WFObj_values : ∀ fs : JsonObj, WFObj fs → ∀ p ∈ fieldsToList fs, WFJson p.2
  | JsonObj.nil, _, p, hp => by simp [fieldsToList] at hp
  | JsonObj.cons k v fs, h, p, hp => by
    rcases (by simpa [fieldsToList] using hp : p = (k, v) ∨ p ∈ fieldsToList fs) with h' | h'
    · rw [h']
      exact h.1
    · exact WFObj_values fs h.2 p h'

/-! ## Canonicalization preserves well-formedness and is idempotent -/

mutual
theorem canon_wf : ∀ v : Json, WFJson v → WFJson (canon v)
  | Json.null, _ => trivial
  | Json.bool _, _ => trivial
  | Json.num _, _ => trivial
  | Json.str _, _ => trivial
  | Json.arr xs, h => canonArr_wf xs h
  | Json.obj fs, h => by
    rcases h with ⟨hn, hw⟩
    have hperm : (sortFields (fieldsToList (canonObj fs))).Perm (fieldsToList (canonObj fs)) :=
      sortFields_perm _
    constructor
    · rw [objKeys_ofList]
      have h1 : ((sortFields (fieldsToList (canonObj fs))).map Prod.fst).Perm
          ((fieldsToList (canonObj fs)).map Prod.fst) := hperm.map Prod.fst
      have h2 : (fieldsToList (canonObj fs)).map Prod.fst = objKeys fs := by
        rw [canonObj_toList, List.map_map]
        rfl
      exact h1.symm.nodup (h2 ▸ hn)
    · apply WFObj_ofList
      intro p hp
      have hp2 : p ∈ fieldsToList (canonObj fs) := hperm.mem_iff.mp hp
      exact canonObj_values_wf fs hw p hp2

theorem canonArr_wf : ∀ xs : JsonArr, WFArr xs → WFArr (canonArr xs)
  | JsonArr.nil, _ => trivial
  | JsonArr.cons x xs, h => ⟨canon_wf x h.1, canonArr_wf xs h.2⟩

theorem canonObj_values_wf : ∀ fs : JsonObj, WFObj fs → ∀ p ∈ fieldsToList (canonObj fs), WFJson p.2
  | JsonObj.nil, _, p, hp => by simp [canonObj, fieldsToList] at hp
  | JsonObj.cons k v fs, h, p, hp => by
    rcases (by simpa [canonObj, fieldsToList] using hp :
        p = (k, canon v) ∨ p ∈ fieldsToList (canonObj fs)) with h' | h'
    · rw [h']
      exact canon_wf v h.1
    · exact canonObj_values_wf fs h.2 p h'
end

mutual
theorem canon_idem : ∀ v : Json, canon (canon v) = canon v
  | Json.null => rfl
  | Json.bool _ => rfl
  | Json.num _ => rfl
  | Json.str _ => rfl
  | Json.arr xs => congrArg Json.arr (canonArr_idem xs)
  | Json.obj fs => by
    have hfix : ∀ p ∈ sortFields (fieldsToList (canonObj fs)), (p.1, canon p.2) = p := by
      intro p hp
      have hp2 : p ∈ fieldsToList (canonObj fs) := (sortFields_perm _).mem_iff.mp hp
      have := canonObj_fixed fs p hp2
      rw [this]
    show Json.obj _ = Json.obj _
    rw [canonObj_toList, fieldsToList_ofList]
    have hmap : (sortFields (fieldsToList (canonObj fs))).map (fun p => (p.1, canon p.2)) =
        sortFields (fieldsToList (canonObj fs)) := by
      rw [List.map_congr_left hfix]
      exact List.map_id _
    rw [hmap]
    have hss : sortFields (sortFields (fieldsToList (canonObj fs))) =
        sortFields (fieldsToList (canonObj fs)) :=
      List.Sorted.insertionSort_eq (sortFields_sorted (fieldsToList (canonObj fs)))
    rw [hss]

theorem canonArr_idem : ∀ xs : JsonArr, canonArr (canonArr xs) = canonArr xs
  | JsonArr.nil => rfl
  | JsonArr.cons x xs => by
    simp [canonArr, canon_idem x, canonArr_idem xs]

theorem canonObj_fixed : ∀ fs : JsonObj, ∀ p ∈ fieldsToList (canonObj fs), canon p.2 = p.2
  | JsonObj.nil, p, hp => by simp [canonObj, fieldsToList] at hp
  | JsonObj.cons k v fs, p, hp => by
    rcases (by simpa [canonObj, fieldsToList] using hp :
        p = (k, canon v) ∨ p ∈ fieldsToList (canonObj fs)) with h' | h'
    · rw [h']
      exact canon_idem v
    · exact canonObj_fixed fs p h'
end

/-! ## Key-permutation equivalence of documents

KeyPerm v w holds when w is v with the fields of any of its objects
re-ordered arbitrarily (at every nesting level), the relation the
specification uses for key reordering invariance. -/

mutual
inductive KeyPerm : Json → Json → Prop where
  | null : KeyPerm Json.null Json.null
  | bool (b : Bool) : KeyPerm (Json.bool b) (Json.bool b)
  | num (n : Int) : KeyPerm (Json.num n) (Json.num n)
  | str (s : String) : KeyPerm (Json.str s) (Json.str s)
  | arr {xs ys : JsonArr} : KeyPermArr xs ys → KeyPerm (Json.arr xs) (Json.arr ys)
  | obj (fs : JsonObj) (mid : List (String × Json)) (gs : JsonObj) :
      KeyPermFields fs mid → mid.Perm (fieldsToList gs) → KeyPerm (Json.obj fs) (Json.obj gs)

inductive KeyPermArr : JsonArr → JsonArr → Prop where
  | nil : KeyPermArr JsonArr.nil JsonArr.nil
  | cons {x y : Json} {xs ys : JsonArr} :
      KeyPerm x y → KeyPermArr xs ys → KeyPermArr (JsonArr.cons x xs) (JsonArr.cons y ys)

inductive KeyPermFields : JsonObj → List (String × Json) → Prop where
  | nil : KeyPermFields JsonObj.nil []
  | cons (k : String) (v w : Json) (fs : JsonObj) (rest : List (String × Json)) :
      KeyPerm v w → KeyPermFields fs rest →
      KeyPermFields (JsonObj.cons k v fs) ((k, w) :: rest)
end

mutual
theorem keyPerm_canon : ∀ (v w : Json), WFJson v → KeyPerm v w → canon v = canon w
  | Json.null, _, _, h => by cases h; rfl
  | Json.bool _, _, _, h => by cases h; rfl
  | Json.num _, _, _, h => by cases h; rfl
  | Json.str _, _, _, h => by cases h; rfl
  | Json.arr xs, _, hv, h => by
    cases h with
    | arr hx => exact congrArg Json.arr (keyPermArr_canon xs _ hv hx)
  | Json.obj fs, _, hv, h => by
    cases h with
    | obj _ mid gs hf hp =>
      rcases hv with ⟨hn, hw⟩
      have hmid : fieldsToList (canonObj fs) = mid.map (fun p => (p.1, canon p.2)) :=
        keyPermFields_canon fs mid hw hf
      have hgs : fieldsToList (canonObj gs) = (fieldsToList gs).map (fun p => (p.1, canon p.2)) :=
        canonObj_toList gs
      have hpm : (fieldsToList (canonObj fs)).Perm (fieldsToList (canonObj gs)) := by
        rw [hmid, hgs]
        exact hp.map _
      have hchain : (sortFields (fieldsToList (canonObj fs))).Perm
          (sortFields (fieldsToList (canonObj gs))) :=
        ((sortFields_perm _).trans hpm).trans (sortFields_perm _).symm
      have hkeys : ((sortFields (fieldsToList (canonObj fs))).map Prod.fst).Nodup := by
        have h1 : ((sortFields (fieldsToList (canonObj fs))).map Prod.fst).Perm
            ((fieldsToList (canonObj fs)).map Prod.fst) := (sortFields_perm _).map Prod.fst
        have h2 : (fieldsToList (canonObj fs)).map Prod.fst = objKeys fs := by
          rw [canonObj_toList, List.map_map]
          rfl
        exact h1.symm.nodup (h2 ▸ hn)
      have heq : sortFields (fieldsToList (canonObj fs)) = sortFields (fieldsToList (canonObj gs)) :=
        sortedFields_unique hchain (sortFields_sorted _) (sortFields_sorted _) hkeys
      show Json.obj _ = Json.obj _
      rw [heq]

theorem keyPermArr_canon : ∀ (xs ys : JsonArr), WFArr xs → KeyPermArr xs ys →
    canonArr xs = canonArr ys
  | JsonArr.nil, _, _, h => by cases h; rfl
  | JsonArr.cons x xs, _, hv, h => by
    cases h with
    | cons hx hxs =>
      show JsonArr.cons _ _ = JsonArr.cons _ _
      rw [keyPerm_canon x _ hv.1 hx, keyPermArr_canon xs _ hv.2 hxs]

theorem keyPermFields_canon : ∀ (fs : JsonObj) (mid : List (String × Json)), WFObj fs →
    KeyPermFields fs mid → fieldsToList (canonObj fs) = mid.map (fun p => (p.1, canon p.2))
  | JsonObj.nil, _, _, h => by cases h; rfl
  | JsonObj.cons k v fs, _, hw, h => by
    cases h with
    | cons _ _ w _ rest hkp hrest =>
      show (k, canon v) :: fieldsToList (canonObj fs) = _
      rw [keyPerm_canon v w hw.1 hkp, keyPermFields_canon fs rest hw.2 hrest]
      rfl
end

/-! ## The parser only produces well-formed values -/

mutual
theorem parseVal_wf : ∀ (fuel : Nat) (cs : List Char) (v : Json) (rest : List Char),
    parseVal fuel cs = some (v, rest) → WFJson v
  | 0, _, _, _, h => by simp [parseVal] at h
  | fuel + 1, cs, v, rest, h => by
    simp only [parseVal] at h
    split at h
    · simp only [Option.some.injEq, Prod.mk.injEq] at h
      rw [← h.1]
      trivial
    · simp only [Option.some.injEq, Prod.mk.injEq] at h
      rw [← h.1]
      trivial
    · simp only [Option.some.injEq, Prod.mk.injEq] at h
      rw [← h.1]
      trivial
    · split at h
      · simp only [Option.some.injEq, Prod.mk.injEq] at h
        rw [← h.1]
        trivial
      · simp at h
    · split at h
      · simp at h
      · split at h
        · simp only [Option.some.injEq, Prod.mk.injEq] at h
          rw [← h.1]
          trivial
        · split at h
          · simp only [Option.some.injEq, Prod.mk.injEq] at h
            rw [← h.1]
            rename_i hitems
            exact parseItems_wf fuel _ _ _ hitems
          · simp at h
    · split at h
      · simp at h
      · split at h
        · simp only [Option.some.injEq, Prod.mk.injEq] at h
          rw [← h.1]
          trivial
        · split at h
          · simp only [Option.some.injEq, Prod.mk.injEq] at h
            rw [← h.1]
            rename_i hfields
            show (objKeys _).Nodup ∧ WFObj _
            exact parseFields_wf fuel _ JsonObj.nil _ _ (by simp [objKeys_nil]) trivial hfields
          · simp at h
    · split at h
      · simp only [Option.some.injEq, Prod.mk.injEq] at h
        rw [← h.1]
        trivial
      · simp at h
    · split at h
      · simp only [Option.some.injEq, Prod.mk.injEq] at h
        rw [← h.1]
        trivial
      · simp at h
    · simp at h

theorem parseItems_wf : ∀ (fuel : Nat) (cs : List Char) (items : JsonArr) (rest : List Char),
    parseItems fuel cs = some (items, rest) → WFArr items
  | 0, _, _, _, h => by simp [parseItems] at h
  | fuel + 1, cs, items, rest, h => by
    simp only [parseItems] at h
    split at h
    · simp at h
    · rename_i v rest0 hval
      split at h
      · split at h
        · simp only [Option.some.injEq, Prod.mk.injEq] at h
          rw [← h.1]
          rename_i hrec
          exact ⟨parseVal_wf fuel _ _ _ hval, parseItems_wf fuel _ _ _ hrec⟩
        · simp at h
      · simp only [Option.some.injEq, Prod.mk.injEq] at h
        rw [← h.1]
        exact ⟨parseVal_wf fuel _ _ _ hval, trivial⟩
      · simp at h

theorem parseFields_wf : ∀ (fuel : Nat) (cs : List Char) (acc fs : JsonObj) (rest : List Char),
    (objKeys acc).Nodup → WFObj acc →
    parseFields fuel cs acc = some (fs, rest) → (objKeys fs).Nodup ∧ WFObj fs
  | 0, _, _, _, _, _, _, h => by simp [parseFields] at h
  | fuel + 1, cs, acc, fs, rest, hnd, hwf, h => by
    simp only [parseFields] at h
    split at h
    · rename_i r
      split at h
      · simp at h
      · rename_i kchars r1
        split at h
        · split at h
          · simp at h
          · rename_i v r3 hval
            split at h
            · rename_i r4
              exact parseFields_wf fuel _ _ _ _
                (objUpdate_nodup acc _ v hnd)
                (objUpdate_wf acc _ v hwf (parseVal_wf fuel _ _ _ hval)) h
            · simp only [Option.some.injEq, Prod.mk.injEq] at h
              rw [← h.1]
              exact ⟨objUpdate_nodup acc _ v hnd,
                objUpdate_wf acc _ v hwf (parseVal_wf fuel _ _ _ hval)⟩
            · simp at h
        · simp at h
    · simp at h
end

/-- Every value produced by loads is well-formed: object keys are pairwise
distinct at every level (Python dicts cannot hold duplicate keys). -/
theorem loads_wf {s : String} {v : Json} (h : loads s = some v) : WFJson v := by
  unfold loads at h
  split at h
  · rename_i v0 rest hp
    split at h
    · simp only [Option.some.injEq] at h
      rw [← h]
      exact parseVal_wf _ _ _ _ hp
    · simp at h
  · simp at h

/-! ## Round-trip support lemmas -/

theorem string_mk_data (s : String) : String.mk s.data = s := by
  cases s
  rfl

theorem skipWs_ws_drop : ∀ (w l : List Char), (∀ c ∈ w, isWsChar c = true) →
    skipWs (w ++ l) = skipWs l
  | [], l, _ => rfl
  | c :: w, l, h => by
    have hc : isWsChar c = true := h c (by simp)
    simp only [List.cons_append, skipWs, hc, if_true]
    exact skipWs_ws_drop w l (fun c hc => h c (by simp [hc]))

theorem skipWs_cons_not {c : Char} (t : List Char) (h : isWsChar c = false) :
    skipWs (c :: t) = c :: t := by
  simp [skipWs, h]

theorem indentChars_ws (lvl : Nat) : ∀ c ∈ indentChars lvl, isWsChar c = true := by
  intro c hc
  have : c = ' ' := List.eq_of_mem_replicate hc
  rw [this]
  rfl

theorem ws_not_digit {c : Char} (h : isWsChar c = true) : c.isDigit = false := by
  have h2 : ((c = ' ' ∨ c = '\t') ∨ c = '\n') ∨ c = '\r' := by
    simpa [isWsChar] using h
  rcases h2 with ((h' | h') | h') | h' <;> rw [h'] <;> rfl

def digitLead : List Char → Bool
  | [] => false
  | c :: _ => c.isDigit

theorem digitLead_ws_close {w : List Char} {c0 : Char} (rest : List Char)
    (hw : ∀ c ∈ w, isWsChar c = true) (hc : c0.isDigit = false) :
    digitLead (w ++ c0 :: rest) = false := by
  cases w with
  | nil => simpa [digitLead] using hc
  | cons c w =>
    have := ws_not_digit (hw c (by simp))
    simpa [digitLead] using this

theorem escChars_parse : ∀ (ds rest : List Char),
    parseStrBody (escChars ds ++ '"' :: rest) = some (ds, rest)
  | [], rest => by simp [escChars, parseStrBody.eq_def]
  | c :: ds, rest => by
    by_cases hc : c = '"' ∨ c = '\\'
    · have hesc : escChar c = ['\\', c] := by
        rcases hc with h' | h' <;> simp [escChar, h']
      have hok : (c = '"' || c = '\\') = true := by
        rcases hc with h' | h' <;> simp [h']
      have harr : escChars (c :: ds) ++ '"' :: rest = '\\' :: c :: (escChars ds ++ '"' :: rest) := by
        simp [escChars, hesc]
      rw [harr]
      rw [parseStrBody.eq_def]
      simp only [reduceIte]
      rw [if_pos hok, escChars_parse ds rest]
      simp
    · have h1 : ¬ c = '"' := fun h => hc (Or.inl h)
      have h2 : ¬ c = '\\' := fun h => hc (Or.inr h)
      have harr : escChars (c :: ds) ++ '"' :: rest = c :: (escChars ds ++ '"' :: rest) := by
        simp [escChars, escChar, h1, h2]
      rw [harr]
      rw [parseStrBody.eq_def]
      simp only [h1, h2, if_false]
      rw [escChars_parse ds rest]

/-! ## Decimal digits round-trip -/

def listVal : Nat → List Char → Nat
  | acc, [] => acc
  | acc, c :: cs => listVal (acc * 10 + (c.toNat - 48)) cs

theorem listVal_append : ∀ (a b : List Char) (acc : Nat),
    listVal acc (a ++ b) = listVal (listVal acc a) b
  | [], b, acc => rfl
  | c :: a, b, acc => listVal_append a b (acc * 10 + (c.toNat - 48))

theorem parseDigits_append : ∀ (ds : List Char) (acc : Nat) (rest : List Char),
    (∀ c ∈ ds, c.isDigit = true) → digitLead rest = false →
    parseDigits (ds ++ rest) acc = (listVal acc ds, rest)
  | [], acc, rest, _, hr => by
    cases rest with
    | nil => rfl
    | cons c t =>
      have hc : c.isDigit = false := by simpa [digitLead] using hr
      show parseDigits (c :: t) acc = (acc, c :: t)
      rw [parseDigits.eq_def]
      simp [hc]
  | c :: ds, acc, rest, hds, hr => by
    have hc : c.isDigit = true := hds c (by simp)
    show parseDigits (c :: (ds ++ rest)) acc = (listVal acc (c :: ds), rest)
    rw [parseDigits.eq_def]
    simp only [hc, if_true]
    have hlv : listVal acc (c :: ds) = listVal (acc * 10 + (c.toNat - 48)) ds := rfl
    rw [hlv]
    exact parseDigits_append ds _ rest (fun c h => hds c (by simp [h])) hr

theorem digitChar_facts : ∀ d : Nat, d < 10 →
    (digitChar d).isDigit = true ∧ (digitChar d).toNat - 48 = d ∧
    isWsChar (digitChar d) = false ∧ digitChar d ≠ ']' ∧ digitChar d ≠ '}' := by
  intro d hd
  interval_cases d <;> exact ⟨rfl, rfl, rfl, by decide, by decide⟩

theorem natDigits_shape : ∀ (fuel n : Nat), n < fuel →
    ∃ d ds, natDigits fuel n = digitChar d :: ds ∧ d < 10 ∧ ∀ c ∈ ds, c.isDigit = true := by
  intro fuel
  induction fuel with
  | zero => intro n h; omega
  | succ fuel ih =>
    intro n h
    by_cases hn : n < 10
    · exact ⟨n, [], by simp [natDigits, hn], hn, by simp⟩
    · have hdiv : n / 10 < fuel := by
        have h1 : n / 10 < n := Nat.div_lt_self (by omega) (by omega)
        omega
      obtain ⟨d, ds, hshape, hd, hdig⟩ := ih (n / 10) hdiv
      refine ⟨d, ds ++ [digitChar (n % 10)], ?_, hd, ?_⟩
      · simp [natDigits, hn, hshape]
      · intro c hcmem
        rcases List.mem_append.mp hcmem with h' | h'
        · exact hdig c h'
        · have : c = digitChar (n % 10) := by simpa using h'
          rw [this]
          exact (digitChar_facts (n % 10) (Nat.mod_lt n (by omega))).1

theorem natDigits_val : ∀ (fuel n acc : Nat), n < fuel →
    listVal acc (natDigits fuel n) = acc * 10 ^ (natDigits fuel n).length + n := by
  intro fuel
  induction fuel with
  | zero => intro n acc h; omega
  | succ fuel ih =>
    intro n acc h
    by_cases hn : n < 10
    · have hd := (digitChar_facts n hn).2.1
      have hshape : natDigits (fuel + 1) n = [digitChar n] := by simp [natDigits, hn]
      rw [hshape]
      have hlv : listVal acc [digitChar n] = acc * 10 + ((digitChar n).toNat - 48) := rfl
      rw [hlv, hd]
      simp
    · have hdiv : n / 10 < fuel := by
        have h1 : n / 10 < n := Nat.div_lt_self (by omega) (by omega)
        omega
      have hmod := (digitChar_facts (n % 10) (Nat.mod_lt n (by omega))).2.1
      have hshape : natDigits (fuel + 1) n = natDigits fuel (n / 10) ++ [digitChar (n % 10)] := by
        simp [natDigits, hn]
      rw [hshape]
      rw [listVal_append, ih (n / 10) acc hdiv]
      have hlv : ∀ x : Nat, listVal x [digitChar (n % 10)] =
          x * 10 + ((digitChar (n % 10)).toNat - 48) := fun x => rfl
      rw [hlv, hmod]
      have hlen : (natDigits fuel (n / 10) ++ [digitChar (n % 10)]).length =
          (natDigits fuel (n / 10)).length + 1 := by simp
      rw [hlen]
      have hpow : 10 ^ ((natDigits fuel (n / 10)).length + 1) =
          10 ^ (natDigits fuel (n / 10)).length * 10 := by ring
      rw [hpow]
      have hnm : 10 * (n / 10) + n % 10 = n := Nat.div_add_mod n 10
      ring_nf
      omega

theorem parseVal_digit_start (fuel : Nat) (d : Nat) (hd : d < 10) (cs : List Char) :
    parseVal (fuel + 1) (digitChar d :: cs) =
      some (Json.num (Int.ofNat (parseDigits cs ((digitChar d).toNat - 48)).1),
        (parseDigits cs ((digitChar d).toNat - 48)).2) := by
  interval_cases d <;> rfl

theorem parseVal_neg_digit_start (fuel : Nat) (d : Nat) (hd : d < 10) (cs : List Char) :
    parseVal (fuel + 1) ('-' :: digitChar d :: cs) =
      some (Json.num (-(Int.ofNat (parseDigits cs ((digitChar d).toNat - 48)).1)),
        (parseDigits cs ((digitChar d).toNat - 48)).2) := by
  interval_cases d <;> rfl

/-! ## Parser unfolding helpers and print-size bookkeeping -/

theorem parseVal_quote (fuel : Nat) (r : List Char) :
    parseVal (fuel + 1) ('"' :: r) =
      match parseStrBody r with
      | some (s, r1) => some (Json.str (String.mk s), r1)
      | none => none := rfl

theorem parseVal_open_bracket (fuel : Nat) (r : List Char) :
    parseVal (fuel + 1) ('[' :: r) =
      match skipWs r with
      | [] => none
      | c :: t =>
        if c = ']' then some (Json.arr JsonArr.nil, t)
        else
          match parseItems fuel (c :: t) with
          | some (items, r2) => some (Json.arr items, r2)
          | none => none := rfl

theorem parseVal_open_brace (fuel : Nat) (r : List Char) :
    parseVal (fuel + 1) ('{' :: r) =
      match skipWs r with
      | [] => none
      | c :: t =>
        if c = '}' then some (Json.obj JsonObj.nil, t)
        else
          match parseFields fuel (c :: t) JsonObj.nil with
          | some (fs, r2) => some (Json.obj fs, r2)
          | none => none := rfl

theorem parseItems_succ (fuel : Nat) (cs : List Char) :
    parseItems (fuel + 1) cs =
      match parseVal fuel cs with
      | none => none
      | some (v, rest) =>
        match skipWs rest with
        | ',' :: r2 =>
          match parseItems fuel (skipWs r2) with
          | some (items, r3) => some (JsonArr.cons v items, r3)
          | none => none
        | ']' :: r2 => some (JsonArr.cons v JsonArr.nil, r2)
        | _ => none := rfl

theorem parseFields_quote (fuel : Nat) (r : List Char) (acc : JsonObj) :
    parseFields (fuel + 1) ('"' :: r) acc =
      match parseStrBody r with
      | none => none
      | some (kchars, r1) =>
        match skipWs r1 with
        | ':' :: r2 =>
          match parseVal fuel (skipWs r2) with
          | none => none
          | some (v, r3) =>
            match skipWs r3 with
            | ',' :: r4 => parseFields fuel (skipWs r4) (objUpdate acc (String.mk kchars) v)
            | '}' :: r4 => some (objUpdate acc (String.mk kchars) v, r4)
            | _ => none
        | _ => none := rfl

mutual
def sizeJ : Json → Nat
  | Json.null => 1
  | Json.bool _ => 1
  | Json.num _ => 1
  | Json.str _ => 1
  | Json.arr xs => 1 + sizeItems xs
  | Json.obj fs => 1 + sizeFields fs

def sizeItems : JsonArr → Nat
  | JsonArr.nil => 0
  | JsonArr.cons x xs => 1 + sizeJ x + sizeItems xs

def sizeFields : JsonObj → Nat
  | JsonObj.nil => 0
  | JsonObj.cons _ v fs => 1 + sizeJ v + sizeFields fs
end

theorem sizeJ_pos : ∀ v : Json, 1 ≤ sizeJ v
  | Json.null => Nat.le_refl 1
  | Json.bool _ => Nat.le_refl 1
  | Json.num _ => Nat.le_refl 1
  | Json.str _ => Nat.le_refl 1
  | Json.arr xs => Nat.le_add_right 1 (sizeItems xs)
  | Json.obj fs => Nat.le_add_right 1 (sizeFields fs)

theorem intChars_shape : ∀ n : Int, ∃ c t, intChars n = c :: t ∧ isWsChar c = false ∧
    c ≠ ']' ∧ c ≠ '}' := by
  intro n
  cases n with
  | ofNat m =>
    obtain ⟨d, ds, hshape, hd, _⟩ := natDigits_shape (m + 1) m (by omega)
    obtain ⟨_, _, hws, hbr, hbc⟩ := digitChar_facts d hd
    exact ⟨digitChar d, ds, hshape, hws, hbr, hbc⟩
  | negSucc m =>
    exact ⟨'-', natDigits (m + 2) (m + 1), rfl, rfl, by decide, by decide⟩

theorem printJson_head : ∀ (lvl : Nat) (v : Json), ∃ c t, printJson lvl v = c :: t ∧
    isWsChar c = false ∧ c ≠ ']' ∧ c ≠ '}'
  | _, Json.null => ⟨'n', _, rfl, rfl, by decide, by decide⟩
  | _, Json.bool true => ⟨'t', _, rfl, rfl, by decide, by decide⟩
  | _, Json.bool false => ⟨'f', _, rfl, rfl, by decide, by decide⟩
  | _, Json.num n => intChars_shape n
  | _, Json.str s => ⟨'"', _, rfl, rfl, by decide, by decide⟩
  | _, Json.arr JsonArr.nil => ⟨'[', _, rfl, rfl, by decide, by decide⟩
  | lvl, Json.arr (JsonArr.cons x xs) => ⟨'[', _, rfl, rfl, by decide, by decide⟩
  | _, Json.obj JsonObj.nil => ⟨'{', _, rfl, rfl, by decide, by decide⟩
  | lvl, Json.obj (JsonObj.cons k v fs) => ⟨'{', _, rfl, rfl, by decide, by decide⟩

theorem itemsBody_split (lvl : Nat) (x : Json) (xs : JsonArr) :
    ∃ u, itemsBody lvl (JsonArr.cons x xs) = printJson lvl x ++ u := by
  cases xs with
  | nil => exact ⟨[], by simp [itemsBody]⟩
  | cons y ys => exact ⟨_, rfl⟩

theorem itemsBody_head (lvl : Nat) (x : Json) (xs : JsonArr) :
    ∃ c t, itemsBody lvl (JsonArr.cons x xs) = c :: t ∧ isWsChar c = false ∧ c ≠ ']' := by
  obtain ⟨u, hu⟩ := itemsBody_split lvl x xs
  obtain ⟨c, t, hh, hws, hbr, _⟩ := printJson_head lvl x
  exact ⟨c, t ++ u, by rw [hu, hh]; rfl, hws, hbr⟩

theorem fieldsBody_head (lvl : Nat) (k : String) (v : Json) (fs : JsonObj) :
    ∃ t, fieldsBody lvl (JsonObj.cons k v fs) = '"' :: t := by
  cases fs with
  | nil => exact ⟨_, rfl⟩
  | cons k2 v2 gs => exact ⟨_, rfl⟩

theorem skipWs_ws_then (w l : List Char) (hw : ∀ c ∈ w, isWsChar c = true)
    (c : Char) (t : List Char) (hl : l = c :: t) (hc : isWsChar c = false) :
    skipWs (w ++ l) = l := by
  rw [skipWs_ws_drop w l hw, hl]
  exact skipWs_cons_not t hc

theorem nl_indent_ws (lvl : Nat) : ∀ c ∈ '\n' :: indentChars lvl, isWsChar c = true := by
  intro c hc
  rcases List.mem_cons.mp hc with h' | h'
  · rw [h']
    rfl
  · exact indentChars_ws lvl c h'

mutual
theorem sizeJ_le_printLen : ∀ (lvl : Nat) (v : Json), sizeJ v ≤ (printJson lvl v).length
  | lvl, Json.null => by
    show (1 : Nat) ≤ 4
    omega
  | lvl, Json.bool true => by
    show (1 : Nat) ≤ 4
    omega
  | lvl, Json.bool false => by
    show (1 : Nat) ≤ 5
    omega
  | lvl, Json.num n => by
    obtain ⟨c, t, hh, _, _, _⟩ := intChars_shape n
    show 1 ≤ (intChars n).length
    rw [hh]
    simp
  | lvl, Json.str s => by
    show 1 ≤ ('"' :: (escChars s.data ++ ['"'])).length
    simp
  | lvl, Json.arr JsonArr.nil => by
    show (1 : Nat) ≤ 2
    omega
  | lvl, Json.arr (JsonArr.cons x xs) => by
    have hitems := sizeItems_le_bodyLen (lvl + 1) (JsonArr.cons x xs)
    show 1 + sizeItems (JsonArr.cons x xs) ≤
      ('[' :: '\n' :: (indentChars (lvl + 1) ++ itemsBody (lvl + 1) (JsonArr.cons x xs) ++
        '\n' :: (indentChars lvl ++ [']']))).length
    simp only [List.length_cons, List.length_append]
    omega
  | lvl, Json.obj JsonObj.nil => by
    show (1 : Nat) ≤ 2
    omega
  | lvl, Json.obj (JsonObj.cons k v fs) => by
    have hfields := sizeFields_le_bodyLen (lvl + 1) (JsonObj.cons k v fs)
    show 1 + sizeFields (JsonObj.cons k v fs) ≤
      ('{' :: '\n' :: (indentChars (lvl + 1) ++ fieldsBody (lvl + 1) (JsonObj.cons k v fs) ++
        '\n' :: (indentChars lvl ++ ['}']))).length
    simp only [List.length_cons, List.length_append]
    omega

theorem sizeItems_le_bodyLen : ∀ (lvl : Nat) (xs : JsonArr),
    sizeItems xs ≤ (itemsBody lvl xs).length + 1
  | lvl, JsonArr.nil => Nat.zero_le _
  | lvl, JsonArr.cons x JsonArr.nil => by
    have h := sizeJ_le_printLen lvl x
    show 1 + sizeJ x + 0 ≤ (printJson lvl x).length + 1
    omega
  | lvl, JsonArr.cons x (JsonArr.cons y ys) => by
    have h1 := sizeJ_le_printLen lvl x
    have h2 := sizeItems_le_bodyLen lvl (JsonArr.cons y ys)
    show 1 + sizeJ x + sizeItems (JsonArr.cons y ys) ≤
      (printJson lvl x ++ ',' :: '\n' :: (indentChars lvl ++ itemsBody lvl (JsonArr.cons y ys))).length + 1
    simp only [List.length_append, List.length_cons]
    omega

theorem sizeFields_le_bodyLen : ∀ (lvl : Nat) (fs : JsonObj),
    sizeFields fs ≤ (fieldsBody lvl fs).length + 1
  | lvl, JsonObj.nil => Nat.zero_le _
  | lvl, JsonObj.cons k v JsonObj.nil => by
    have h := sizeJ_le_printLen lvl v
    show 1 + sizeJ v + 0 ≤ (encStr k ++ ':' :: ' ' :: printJson lvl v).length + 1
    simp only [List.length_append, List.length_cons]
    omega
  | lvl, JsonObj.cons k v (JsonObj.cons k2 v2 gs) => by
    have h1 := sizeJ_le_printLen lvl v
    have h2 := sizeFields_le_bodyLen lvl (JsonObj.cons k2 v2 gs)
    show 1 + sizeJ v + sizeFields (JsonObj.cons k2 v2 gs) ≤
      (encStr k ++ ':' :: ' ' :: (printJson lvl v ++
        ',' :: '\n' :: (indentChars lvl ++ fieldsBody lvl (JsonObj.cons k2 v2 gs)))).length + 1
    simp only [List.length_append, List.length_cons]
    omega
end

/-! ## The parser inverts the printer

For every well-formed value, parsing the printed text (followed by any
non-digit-leading remainder) succeeds and returns exactly that value. -/

mutual
theorem parse_print : ∀ (fuel : Nat) (v : Json) (lvl : Nat) (rest : List Char),
    WFJson v → sizeJ v ≤ fuel → digitLead rest = false →
    parseVal fuel (printJson lvl v ++ rest) = some (v, rest)
  | 0, v, _, _, _, hsz, _ => absurd hsz (by have := sizeJ_pos v; omega)
  | fuel + 1, Json.null, lvl, rest, _, _, _ => rfl
  | fuel + 1, Json.bool true, lvl, rest, _, _, _ => rfl
  | fuel + 1, Json.bool false, lvl, rest, _, _, _ => rfl
  | fuel + 1, Json.num (Int.ofNat m), lvl, rest, _, _, hrest => by
    obtain ⟨d, ds, hshape, hd, hdig⟩ := natDigits_shape (m + 1) m (by omega)
    show parseVal (fuel + 1) (natDigits (m + 1) m ++ rest) = some (Json.num (Int.ofNat m), rest)
    rw [hshape, List.cons_append, parseVal_digit_start fuel d hd (ds ++ rest)]
    rw [parseDigits_append ds _ rest hdig hrest]
    have hval : listVal ((digitChar d).toNat - 48) ds = m := by
      have h0 : listVal 0 (natDigits (m + 1) m) = m := by
        have h1 := natDigits_val (m + 1) m 0 (by omega)
        simpa using h1
      rw [hshape] at h0
      have h2 : listVal 0 (digitChar d :: ds) =
          listVal (0 * 10 + ((digitChar d).toNat - 48)) ds := rfl
      rw [h2] at h0
      simpa using h0
    rw [hval]
  | fuel + 1, Json.num (Int.negSucc m), lvl, rest, _, _, hrest => by
    obtain ⟨d, ds, hshape, hd, hdig⟩ := natDigits_shape (m + 2) (m + 1) (by omega)
    show parseVal (fuel + 1) (('-' :: natDigits (m + 2) (m + 1)) ++ rest) =
      some (Json.num (Int.negSucc m), rest)
    rw [List.cons_append, hshape, List.cons_append,
      parseVal_neg_digit_start fuel d hd (ds ++ rest)]
    rw [parseDigits_append ds _ rest hdig hrest]
    have hval : listVal ((digitChar d).toNat - 48) ds = m + 1 := by
      have h0 : listVal 0 (natDigits (m + 2) (m + 1)) = m + 1 := by
        have h1 := natDigits_val (m + 2) (m + 1) 0 (by omega)
        simpa using h1
      rw [hshape] at h0
      have h2 : listVal 0 (digitChar d :: ds) =
          listVal (0 * 10 + ((digitChar d).toNat - 48)) ds := rfl
      rw [h2] at h0
      simpa using h0
    rw [hval]
    have hneg : -(Int.ofNat (m + 1)) = Int.negSucc m := by
      rw [Int.negSucc_eq]
      simp
    rw [hneg]
  | fuel + 1, Json.str s, lvl, rest, _, _, _ => by
    have harr : printJson lvl (Json.str s) ++ rest =
        '"' :: (escChars s.data ++ '"' :: rest) := by
      show ('"' :: (escChars s.data ++ ['"'])) ++ rest = _
      simp
    rw [harr, parseVal_quote, escChars_parse s.data rest]
  | fuel + 1, Json.arr JsonArr.nil, lvl, rest, _, _, _ => by
    show parseVal (fuel + 1) ('[' :: (']' :: rest)) = some (Json.arr JsonArr.nil, rest)
    rw [parseVal_open_bracket, skipWs_cons_not rest (by decide)]
    simp
  | fuel + 1, Json.arr (JsonArr.cons x xs), lvl, rest, hwf, hsz, _ => by
    obtain ⟨c, t, hct, hws, hbr⟩ := itemsBody_head (lvl + 1) x xs
    have hsplit : printJson lvl (Json.arr (JsonArr.cons x xs)) ++ rest =
        '[' :: (('\n' :: indentChars (lvl + 1)) ++
          (itemsBody (lvl + 1) (JsonArr.cons x xs) ++ (('\n' :: indentChars lvl) ++ (']' :: rest)))) := by
      show ('[' :: '\n' :: (indentChars (lvl + 1) ++ itemsBody (lvl + 1) (JsonArr.cons x xs) ++
          '\n' :: (indentChars lvl ++ [']']))) ++ rest = _
      simp
    rw [hsplit, parseVal_open_bracket]
    have hskip : skipWs (('\n' :: indentChars (lvl + 1)) ++
        (itemsBody (lvl + 1) (JsonArr.cons x xs) ++ (('\n' :: indentChars lvl) ++ (']' :: rest)))) =
        itemsBody (lvl + 1) (JsonArr.cons x xs) ++ (('\n' :: indentChars lvl) ++ (']' :: rest)) :=
      skipWs_ws_then _ _ (nl_indent_ws (lvl + 1)) c
        (t ++ (('\n' :: indentChars lvl) ++ (']' :: rest))) (by rw [hct]; simp) hws
    rw [hskip]
    have hform : itemsBody (lvl + 1) (JsonArr.cons x xs) ++
        (('\n' :: indentChars lvl) ++ (']' :: rest)) =
        c :: (t ++ (('\n' :: indentChars lvl) ++ (']' :: rest))) := by
      rw [hct]
      simp
    rw [hform]
    show (if c = ']' then some (Json.arr JsonArr.nil, t ++ (('\n' :: indentChars lvl) ++ (']' :: rest)))
        else
          match parseItems fuel (c :: (t ++ (('\n' :: indentChars lvl) ++ (']' :: rest)))) with
          | some (items, r2) => some (Json.arr items, r2)
          | none => none) = some (Json.arr (JsonArr.cons x xs), rest)
    rw [if_neg hbr, ← hform]
    have hfuel : sizeItems (JsonArr.cons x xs) ≤ fuel := by
      have e : sizeJ (Json.arr (JsonArr.cons x xs)) = 1 + sizeItems (JsonArr.cons x xs) := rfl
      omega
    rw [parse_items fuel x xs (lvl + 1) ('\n' :: indentChars lvl) rest hwf hfuel (nl_indent_ws lvl)]
  | fuel + 1, Json.obj JsonObj.nil, lvl, rest, _, _, _ => by
    show parseVal (fuel + 1) ('{' :: ('}' :: rest)) = some (Json.obj JsonObj.nil, rest)
    rw [parseVal_open_brace, skipWs_cons_not rest (by decide)]
    simp
  | fuel + 1, Json.obj (JsonObj.cons k v fs), lvl, rest, hwf, hsz, _ => by
    obtain ⟨t0, ht0⟩ := fieldsBody_head (lvl + 1) k v fs
    have hsplit : printJson lvl (Json.obj (JsonObj.cons k v fs)) ++ rest =
        '{' :: (('\n' :: indentChars (lvl + 1)) ++
          (fieldsBody (lvl + 1) (JsonObj.cons k v fs) ++ (('\n' :: indentChars lvl) ++ ('}' :: rest)))) := by
      show ('{' :: '\n' :: (indentChars (lvl + 1) ++ fieldsBody (lvl + 1) (JsonObj.cons k v fs) ++
          '\n' :: (indentChars lvl ++ ['}']))) ++ rest = _
      simp
    rw [hsplit, parseVal_open_brace]
    have hskip : skipWs (('\n' :: indentChars (lvl + 1)) ++
        (fieldsBody (lvl + 1) (JsonObj.cons k v fs) ++ (('\n' :: indentChars lvl) ++ ('}' :: rest)))) =
        fieldsBody (lvl + 1) (JsonObj.cons k v fs) ++ (('\n' :: indentChars lvl) ++ ('}' :: rest)) :=
      skipWs_ws_then _ _ (nl_indent_ws (lvl + 1)) '"'
        (t0 ++ (('\n' :: indentChars lvl) ++ ('}' :: rest))) (by rw [ht0]; simp) (by decide)
    rw [hskip]
    have hform : fieldsBody (lvl + 1) (JsonObj.cons k v fs) ++
        (('\n' :: indentChars lvl) ++ ('}' :: rest)) =
        '"' :: (t0 ++ (('\n' :: indentChars lvl) ++ ('}' :: rest))) := by
      rw [ht0]
      simp
    rw [hform]
    show (match parseFields fuel ('"' :: (t0 ++ (('\n' :: indentChars lvl) ++ ('}' :: rest))))
          JsonObj.nil with
        | some (fs2, r2) => some (Json.obj fs2, r2)
        | none => none) = some (Json.obj (JsonObj.cons k v fs), rest)
    rw [← hform]
    have hfuel : sizeFields (JsonObj.cons k v fs) ≤ fuel := by
      have e : sizeJ (Json.obj (JsonObj.cons k v fs)) = 1 + sizeFields (JsonObj.cons k v fs) := rfl
      omega
    have hrec := parse_fields fuel k v fs (lvl + 1) JsonObj.nil ('\n' :: indentChars lvl) rest
      hwf.2 hwf.1 (by simp [objKeys_nil]) hfuel (nl_indent_ws lvl)
    rw [hrec]
    rfl

theorem parse_items : ∀ (fuel : Nat) (x : Json) (xs : JsonArr) (lvl : Nat) (w rest : List Char),
    WFArr (JsonArr.cons x xs) → sizeItems (JsonArr.cons x xs) ≤ fuel →
    (∀ c ∈ w, isWsChar c = true) →
    parseItems fuel (itemsBody lvl (JsonArr.cons x xs) ++ (w ++ (']' :: rest))) =
      some (JsonArr.cons x xs, rest)
  | 0, x, xs, _, _, _, _, hsz, _ => by
    have e : sizeItems (JsonArr.cons x xs) = 1 + sizeJ x + sizeItems xs := rfl
    omega
  | fuel + 1, x, JsonArr.nil, lvl, w, rest, hwf, hsz, hw => by
    show parseItems (fuel + 1) (printJson lvl x ++ (w ++ (']' :: rest))) =
      some (JsonArr.cons x JsonArr.nil, rest)
    rw [parseItems_succ]
    have hfuel : sizeJ x ≤ fuel := by
      have e : sizeItems (JsonArr.cons x JsonArr.nil) = 1 + sizeJ x + 0 := rfl
      omega
    rw [parse_print fuel x lvl (w ++ (']' :: rest)) hwf.1 hfuel
      (digitLead_ws_close rest hw (by decide))]
    show (match skipWs (w ++ (']' :: rest)) with
        | ',' :: r2 =>
          match parseItems fuel (skipWs r2) with
          | some (items, r3) => some (JsonArr.cons x items, r3)
          | none => none
        | ']' :: r2 => some (JsonArr.cons x JsonArr.nil, r2)
        | _ => none) = some (JsonArr.cons x JsonArr.nil, rest)
    rw [skipWs_ws_then w _ hw ']' rest rfl (by decide)]
    rfl
  | fuel + 1, x, JsonArr.cons y ys, lvl, w, rest, hwf, hsz, hw => by
    have harr : itemsBody lvl (JsonArr.cons x (JsonArr.cons y ys)) ++ (w ++ (']' :: rest)) =
        printJson lvl x ++ (',' :: ('\n' :: (indentChars lvl ++
          (itemsBody lvl (JsonArr.cons y ys) ++ (w ++ (']' :: rest)))))) := by
      show (printJson lvl x ++ ',' :: '\n' :: (indentChars lvl ++ itemsBody lvl (JsonArr.cons y ys))) ++
        (w ++ (']' :: rest)) = _
      simp
    rw [harr, parseItems_succ]
    have hfuel : sizeJ x ≤ fuel := by
      have e1 : sizeItems (JsonArr.cons x (JsonArr.cons y ys)) =
          1 + sizeJ x + sizeItems (JsonArr.cons y ys) := rfl
      omega
    rw [parse_print fuel x lvl (',' :: ('\n' :: (indentChars lvl ++
      (itemsBody lvl (JsonArr.cons y ys) ++ (w ++ (']' :: rest)))))) hwf.1 hfuel rfl]
    show (match skipWs (',' :: ('\n' :: (indentChars lvl ++
          (itemsBody lvl (JsonArr.cons y ys) ++ (w ++ (']' :: rest)))))) with
        | ',' :: r2 =>
          match parseItems fuel (skipWs r2) with
          | some (items, r3) => some (JsonArr.cons x items, r3)
          | none => none
        | ']' :: r2 => some (JsonArr.cons x JsonArr.nil, r2)
        | _ => none) = some (JsonArr.cons x (JsonArr.cons y ys), rest)
    rw [skipWs_cons_not _ (by decide)]
    show (match parseItems fuel (skipWs ('\n' :: (indentChars lvl ++
          (itemsBody lvl (JsonArr.cons y ys) ++ (w ++ (']' :: rest)))))) with
        | some (items, r3) => some (JsonArr.cons x items, r3)
        | none => none) = some (JsonArr.cons x (JsonArr.cons y ys), rest)
    obtain ⟨c, t, hct, hws, _⟩ := itemsBody_head lvl y ys
    have hskip2 : skipWs ('\n' :: (indentChars lvl ++
        (itemsBody lvl (JsonArr.cons y ys) ++ (w ++ (']' :: rest))))) =
        itemsBody lvl (JsonArr.cons y ys) ++ (w ++ (']' :: rest)) := by
      have hgrp : '\n' :: (indentChars lvl ++
          (itemsBody lvl (JsonArr.cons y ys) ++ (w ++ (']' :: rest)))) =
          ('\n' :: indentChars lvl) ++ (itemsBody lvl (JsonArr.cons y ys) ++ (w ++ (']' :: rest))) := by
        simp
      rw [hgrp]
      exact skipWs_ws_then _ _ (nl_indent_ws lvl) c (t ++ (w ++ (']' :: rest)))
        (by rw [hct]; simp) hws
    rw [hskip2]
    have hfuel2 : sizeItems (JsonArr.cons y ys) ≤ fuel := by
      have e1 : sizeItems (JsonArr.cons x (JsonArr.cons y ys)) =
          1 + sizeJ x + sizeItems (JsonArr.cons y ys) := rfl
      omega
    rw [parse_items fuel y ys lvl w rest hwf.2 hfuel2 hw]

theorem parse_fields : ∀ (fuel : Nat) (k : String) (v : Json) (fs : JsonObj) (lvl : Nat)
    (acc : JsonObj) (w rest : List Char),
    WFObj (JsonObj.cons k v fs) → (objKeys (JsonObj.cons k v fs)).Nodup →
    (∀ key ∈ objKeys (JsonObj.cons k v fs), key ∉ objKeys acc) →
    sizeFields (JsonObj.cons k v fs) ≤ fuel →
    (∀ c ∈ w, isWsChar c = true) →
    parseFields fuel (fieldsBody lvl (JsonObj.cons k v fs) ++ (w ++ ('}' :: rest))) acc =
      some (objConcat acc (JsonObj.cons k v fs), rest)
  | 0, k, v, fs, _, _, _, _, _, _, _, hsz, _ => by
    have e : sizeFields (JsonObj.cons k v fs) = 1 + sizeJ v + sizeFields fs := rfl
    omega
  | fuel + 1, k, v, JsonObj.nil, lvl, acc, w, rest, hwf, hnd, hdisj, hsz, hw => by
    have harr : fieldsBody lvl (JsonObj.cons k v JsonObj.nil) ++ (w ++ ('}' :: rest)) =
        '"' :: (escChars k.data ++ '"' :: (':' :: (' ' :: (printJson lvl v ++ (w ++ ('}' :: rest)))))) := by
      show (encStr k ++ ':' :: ' ' :: printJson lvl v) ++ (w ++ ('}' :: rest)) = _
      show (('"' :: (escChars k.data ++ ['"'])) ++ ':' :: ' ' :: printJson lvl v) ++ (w ++ ('}' :: rest)) = _
      simp
    rw [harr, parseFields_quote]
    rw [escChars_parse k.data (':' :: (' ' :: (printJson lvl v ++ (w ++ ('}' :: rest)))))]
    show (match skipWs (':' :: (' ' :: (printJson lvl v ++ (w ++ ('}' :: rest))))) with
        | ':' :: r2 =>
          match parseVal fuel (skipWs r2) with
          | none => none
          | some (v2, r3) =>
            match skipWs r3 with
            | ',' :: r4 => parseFields fuel (skipWs r4) (objUpdate acc (String.mk k.data) v2)
            | '}' :: r4 => some (objUpdate acc (String.mk k.data) v2, r4)
            | _ => none
        | _ => none) = some (objConcat acc (JsonObj.cons k v JsonObj.nil), rest)
    rw [skipWs_cons_not _ (by decide)]
    show (match parseVal fuel (skipWs (' ' :: (printJson lvl v ++ (w ++ ('}' :: rest))))) with
        | none => none
        | some (v2, r3) =>
          match skipWs r3 with
          | ',' :: r4 => parseFields fuel (skipWs r4) (objUpdate acc (String.mk k.data) v2)
          | '}' :: r4 => some (objUpdate acc (String.mk k.data) v2, r4)
          | _ => none) = some (objConcat acc (JsonObj.cons k v JsonObj.nil), rest)
    obtain ⟨c, t, hct, hws, _, _⟩ := printJson_head lvl v
    have hskipv : skipWs (' ' :: (printJson lvl v ++ (w ++ ('}' :: rest)))) =
        printJson lvl v ++ (w ++ ('}' :: rest)) := by
      have hgrp : ' ' :: (printJson lvl v ++ (w ++ ('}' :: rest))) =
          [' '] ++ (printJson lvl v ++ (w ++ ('}' :: rest))) := rfl
      rw [hgrp]
      exact skipWs_ws_then _ _ (by intro c2 h2; simp at h2; rw [h2]; rfl) c
        (t ++ (w ++ ('}' :: rest))) (by rw [hct]; simp) hws
    rw [hskipv]
    have hfuel : sizeJ v ≤ fuel := by
      have e : sizeFields (JsonObj.cons k v JsonObj.nil) = 1 + sizeJ v + 0 := rfl
      omega
    rw [parse_print fuel v lvl _ hwf.1 hfuel (digitLead_ws_close rest hw (by decide))]
    show (match skipWs (w ++ ('}' :: rest)) with
        | ',' :: r4 => parseFields fuel (skipWs r4) (objUpdate acc (String.mk k.data) v)
        | '}' :: r4 => some (objUpdate acc (String.mk k.data) v, r4)
        | _ => none) = some (objConcat acc (JsonObj.cons k v JsonObj.nil), rest)
    rw [skipWs_ws_then w _ hw '}' rest rfl (by decide)]
    show some (objUpdate acc (String.mk k.data) v, rest) =
      some (objConcat acc (JsonObj.cons k v JsonObj.nil), rest)
    rw [string_mk_data]
    have hk : k ∉ objKeys acc := hdisj k (by simp [objKeys_cons])
    rw [objUpdate_fresh acc k v hk]
  | fuel + 1, k, v, JsonObj.cons k2 v2 gs, lvl, acc, w, rest, hwf, hnd, hdisj, hsz, hw => by
    have harr : fieldsBody lvl (JsonObj.cons k v (JsonObj.cons k2 v2 gs)) ++ (w ++ ('}' :: rest)) =
        '"' :: (escChars k.data ++ '"' :: (':' :: (' ' :: (printJson lvl v ++
          (',' :: ('\n' :: (indentChars lvl ++
            (fieldsBody lvl (JsonObj.cons k2 v2 gs) ++ (w ++ ('}' :: rest)))))))))) := by
      show (encStr k ++ ':' :: ' ' :: (printJson lvl v ++
          ',' :: '\n' :: (indentChars lvl ++ fieldsBody lvl (JsonObj.cons k2 v2 gs)))) ++
          (w ++ ('}' :: rest)) = _
      show (('"' :: (escChars k.data ++ ['"'])) ++ ':' :: ' ' :: (printJson lvl v ++
          ',' :: '\n' :: (indentChars lvl ++ fieldsBody lvl (JsonObj.cons k2 v2 gs)))) ++
          (w ++ ('}' :: rest)) = _
      simp
    rw [harr, parseFields_quote]
    rw [escChars_parse k.data]
    show (match skipWs (':' :: (' ' :: (printJson lvl v ++
          (',' :: ('\n' :: (indentChars lvl ++
            (fieldsBody lvl (JsonObj.cons k2 v2 gs) ++ (w ++ ('}' :: rest))))))))) with
        | ':' :: r2 =>
          match parseVal fuel (skipWs r2) with
          | none => none
          | some (v3, r3) =>
            match skipWs r3 with
            | ',' :: r4 => parseFields fuel (skipWs r4) (objUpdate acc (String.mk k.data) v3)
            | '}' :: r4 => some (objUpdate acc (String.mk k.data) v3, r4)
            | _ => none
        | _ => none) =
      some (objConcat acc (JsonObj.cons k v (JsonObj.cons k2 v2 gs)), rest)
    rw [skipWs_cons_not _ (by decide)]
    show (match parseVal fuel (skipWs (' ' :: (printJson lvl v ++
          (',' :: ('\n' :: (indentChars lvl ++
            (fieldsBody lvl (JsonObj.cons k2 v2 gs) ++ (w ++ ('}' :: rest))))))))) with
        | none => none
        | some (v3, r3) =>
          match skipWs r3 with
          | ',' :: r4 => parseFields fuel (skipWs r4) (objUpdate acc (String.mk k.data) v3)
          | '}' :: r4 => some (objUpdate acc (String.mk k.data) v3, r4)
          | _ => none) =
      some (objConcat acc (JsonObj.cons k v (JsonObj.cons k2 v2 gs)), rest)
    obtain ⟨c, t, hct, hws, _, _⟩ := printJson_head lvl v
    have hskipv : skipWs (' ' :: (printJson lvl v ++
        (',' :: ('\n' :: (indentChars lvl ++
          (fieldsBody lvl (JsonObj.cons k2 v2 gs) ++ (w ++ ('}' :: rest)))))))) =
        printJson lvl v ++ (',' :: ('\n' :: (indentChars lvl ++
          (fieldsBody lvl (JsonObj.cons k2 v2 gs) ++ (w ++ ('}' :: rest)))))) := by
      have hgrp : ' ' :: (printJson lvl v ++
          (',' :: ('\n' :: (indentChars lvl ++
            (fieldsBody lvl (JsonObj.cons k2 v2 gs) ++ (w ++ ('}' :: rest))))))) =
          [' '] ++ (printJson lvl v ++ (',' :: ('\n' :: (indentChars lvl ++
            (fieldsBody lvl (JsonObj.cons k2 v2 gs) ++ (w ++ ('}' :: rest))))))) := rfl
      rw [hgrp]
      exact skipWs_ws_then _ _ (by intro c2 h2; simp at h2; rw [h2]; rfl) c
        (t ++ (',' :: ('\n' :: (indentChars lvl ++
          (fieldsBody lvl (JsonObj.cons k2 v2 gs) ++ (w ++ ('}' :: rest)))))))
        (by rw [hct]; simp) hws
    rw [hskipv]
    have hfuel : sizeJ v ≤ fuel := by
      have e : sizeFields (JsonObj.cons k v (JsonObj.cons k2 v2 gs)) =
          1 + sizeJ v + sizeFields (JsonObj.cons k2 v2 gs) := rfl
      omega
    rw [parse_print fuel v lvl (',' :: ('\n' :: (indentChars lvl ++
      (fieldsBody lvl (JsonObj.cons k2 v2 gs) ++ (w ++ ('}' :: rest)))))) hwf.1 hfuel rfl]
    show (match skipWs (',' :: ('\n' :: (indentChars lvl ++
          (fieldsBody lvl (JsonObj.cons k2 v2 gs) ++ (w ++ ('}' :: rest)))))) with
        | ',' :: r4 => parseFields fuel (skipWs r4) (objUpdate acc (String.mk k.data) v)
        | '}' :: r4 => some (objUpdate acc (String.mk k.data) v, r4)
        | _ => none) =
      some (objConcat acc (JsonObj.cons k v (JsonObj.cons k2 v2 gs)), rest)
    rw [skipWs_cons_not _ (by decide)]
    show parseFields fuel (skipWs ('\n' :: (indentChars lvl ++
          (fieldsBody lvl (JsonObj.cons k2 v2 gs) ++ (w ++ ('}' :: rest))))))
        (objUpdate acc (String.mk k.data) v) =
      some (objConcat acc (JsonObj.cons k v (JsonObj.cons k2 v2 gs)), rest)
    obtain ⟨t2, ht2⟩ := fieldsBody_head lvl k2 v2 gs
    have hskip2 : skipWs ('\n' :: (indentChars lvl ++
        (fieldsBody lvl (JsonObj.cons k2 v2 gs) ++ (w ++ ('}' :: rest))))) =
        fieldsBody lvl (JsonObj.cons k2 v2 gs) ++ (w ++ ('}' :: rest)) := by
      have hgrp : '\n' :: (indentChars lvl ++
          (fieldsBody lvl (JsonObj.cons k2 v2 gs) ++ (w ++ ('}' :: rest)))) =
          ('\n' :: indentChars lvl) ++
            (fieldsBody lvl (JsonObj.cons k2 v2 gs) ++ (w ++ ('}' :: rest))) := by
        simp
      rw [hgrp]
      exact skipWs_ws_then _ _ (nl_indent_ws lvl) '"' (t2 ++ (w ++ ('}' :: rest)))
        (by rw [ht2]; simp) (by decide)
    rw [hskip2, string_mk_data]
    have hk : k ∉ objKeys acc := hdisj k (by simp [objKeys_cons])
    have hknotin : k ∉ objKeys (JsonObj.cons k2 v2 gs) := by
      have := hnd
      rw [objKeys_cons] at this
      exact (List.nodup_cons.mp this).1
    have hnd2 : (objKeys (JsonObj.cons k2 v2 gs)).Nodup := by
      have := hnd
      rw [objKeys_cons] at this
      exact (List.nodup_cons.mp this).2
    have hdisj2 : ∀ key ∈ objKeys (JsonObj.cons k2 v2 gs),
        key ∉ objKeys (objUpdate acc k v) := by
      intro key hkey
      rw [objUpdate_fresh acc k v hk, objConcat_keys]
      simp only [List.mem_append, objKeys_cons, objKeys_nil]
      intro hmem
      rcases hmem with h' | h'
      · exact hdisj key (by rw [objKeys_cons]; exact List.mem_cons_of_mem _ hkey) h'
      · have : key = k := by simpa using h'
        rw [this] at hkey
        exact hknotin hkey
    have hfuel2 : sizeFields (JsonObj.cons k2 v2 gs) ≤ fuel := by
      have e : sizeFields (JsonObj.cons k v (JsonObj.cons k2 v2 gs)) =
          1 + sizeJ v + sizeFields (JsonObj.cons k2 v2 gs) := rfl
      omega
    rw [parse_fields fuel k2 v2 gs lvl (objUpdate acc k v) w rest hwf.2 hnd2 hdisj2 hfuel2 hw]
    rw [objUpdate_fresh acc k v hk, objConcat_assoc]
    rfl
end

/-! ## Normalization facts -/

/-- Parsing a canonical dump returns exactly the canonicalized value. -/
theorem loads_dumps (v : Json) (hwf : WFJson v) : loads (dumps v) = some (canon v) := by
  unfold loads dumps
  obtain ⟨c, t, hh, hws, _, _⟩ := printJson_head 0 (canon v)
  have hdata : (String.mk (printJson 0 (canon v))).data = printJson 0 (canon v) := rfl
  rw [hdata]
  have hskip : skipWs (printJson 0 (canon v)) = printJson 0 (canon v) := by
    rw [hh]
    exact skipWs_cons_not t hws
  rw [hskip]
  have hfuel : sizeJ (canon v) ≤ (printJson 0 (canon v)).length + 1 := by
    have := sizeJ_le_printLen 0 (canon v)
    omega
  have hrt := parse_print ((printJson 0 (canon v)).length + 1) (canon v) 0 [] (canon_wf v hwf)
    hfuel rfl
  rw [List.append_nil] at hrt
  rw [hrt]
  simp [skipWs]

/-- Source-level idempotence of normalize_json: normalizing twice equals
normalizing once, for every input string. -/
theorem normalize_json_idem (s : String) :
    normalize_json (normalize_json s) = normalize_json s := by
  cases hload : loads s with
  | none => simp [normalize_json, hload]
  | some v =>
    have hwf := loads_wf hload
    simp only [normalize_json, hload]
    rw [loads_dumps v hwf]
    show String.mk (printJson 0 (canon (canon v))) = String.mk (printJson 0 (canon v))
    rw [canon_idem v]

/-- Two parseable documents whose values differ only by object-key ordering
normalize to the same canonical text. -/
theorem normalize_keyPerm {D E : String} {v w : Json} (hD : loads D = some v)
    (hE : loads E = some w) (hperm : KeyPerm v w) :
    normalize_json D = normalize_json E := by
  simp only [normalize_json, hD, hE]
  unfold dumps
  rw [keyPerm_canon v w (loads_wf hD) hperm]

/-! ## Process runner (test-examples.py lines 68 to 85)

The observable outcome of subprocess.run is passed explicitly: the process
either completed (with exit code and captured streams), timed out, or
could not be started at all (subprocess raised before running; the source
catches every exception and stringifies it). -/

inductive ProcOutcome where
  | completed (returncode : Int) (stdout stderr : String)
  | timedOut
  | startFailure (message : String)

def run_command (outcome : ProcOutcome) (capture_output : Bool) : Int × String × String :=
  match outcome with
  | ProcOutcome.completed rc out err =>
    (rc, if capture_output then out else "", if capture_output then err else "")
  | ProcOutcome.timedOut => (1, "", "Command timed out after 10 minutes")
  | ProcOutcome.startFailure msg => (1, "", msg)

/-! ## Module-level tool checks (test-examples.py lines 28 to 41)

The module body is executed top to bottom; a name lookup succeeds only if
the name was bound by an earlier statement.  At the point of the three
shutil.which guards the imports and the preceding path assignments are
bound, while Colors (line 44) and print_colored (line 54) are not yet
defined.  Python evaluates the callee of a call expression first, so a
missing-tool branch first looks up print_colored. -/

inductive GuardOutcome where
  | proceed
  | exited (code : Nat)
  | nameError (missing : String)
deriving DecidableEq

/-- Names bound at module level before line 28 of the source: the imports
of lines 15 to 25. -/
def module_names_before_tool_checks : List String :=
  ["argparse", "json", "os", "subprocess", "sys", "tempfile", "time",
   "Path", "Dict", "List", "Tuple", "Optional", "difflib", "shutil"]

def tool_check_guard (env : List String) (which_result : Option String) : GuardOutcome :=
  match which_result with
  | some _ => GuardOutcome.proceed
  | none =>
    if env.contains "print_colored" then
      if env.contains "Colors" then GuardOutcome.exited 1
      else GuardOutcome.nameError "Colors"
    else GuardOutcome.nameError "print_colored"

def module_tool_checks (which_cdk which_npm which_yarn : Option String) : GuardOutcome :=
  let env1 := module_names_before_tool_checks ++ ["cdk_path"]
  match tool_check_guard env1 which_cdk with
  | GuardOutcome.proceed =>
    let env2 := env1 ++ ["npm_path"]
    match tool_check_guard env2 which_npm with
    | GuardOutcome.proceed => tool_check_guard (env2 ++ ["yarn_path"]) which_yarn
    | r => r
  | r => r

/-! ## Example discovery (test-examples.py lines 88 to 118) -/

structure DirEntry where
  name : String
  isDir : Bool
  hasAppFile : Bool

def entryQualifies (filter_names : Option (List String)) (e : DirEntry) : Bool :=
  e.isDir &&
    (match filter_names with
     | none => true
     | some fns => fns.contains e.name) &&
    e.hasAppFile

def langExamples (lang : String) (entries : List DirEntry)
    (filter_names : Option (List String)) : List String :=
  (entries.filter (entryQualifies filter_names)).map (fun e => lang ++ "/" ++ e.name)

/-- Source translation of find_examples: the two language directories are
passed as optional entry listings (none models a missing directory, which
the source skips); results are sorted. -/
def find_examples (tsDir pyDir : Option (List DirEntry))
    (filter_names : Option (List String)) : List String × List String :=
  let ts := match tsDir with
    | none => []
    | some es => langExamples "typescript" es filter_names
  let py := match pyDir with
    | none => []
    | some es => langExamples "python" es filter_names
  (sortedStrings ts, sortedStrings py)

/-- Source translation of the no-examples abort in main (lines 461 to 463):
when both discovered lists are empty the run returns exit code 1. -/
def no_examples_abort (ts_examples py_examples : List String) : Option Nat :=
  if ts_examples.isEmpty && py_examples.isEmpty then some 1 else none

/-! ## Local-artifact installation steps of synth_example
(test-examples.py lines 146 to 156 and 166 to 177) -/

inductive InstallStepResult where
  | fail (error : String)
  | ok
deriving DecidableEq

/-- The TypeScript local-package step: glob dist/js for .tgz files; an
empty glob is an error, otherwise every matched file is passed to a single
npm install invocation whose exit code decides the step. -/
def tgz_install_step (npm_path dist_js_dir : String) (tgz_files : List String)
    (run : List String → Int × String × String) : InstallStepResult :=
  if tgz_files.isEmpty then
    InstallStepResult.fail ("No dist .tgz files found in " ++ dist_js_dir)
  else
    let r := run ([npm_path, "install", "--no-save"] ++ tgz_files)
    if r.1 ≠ 0 then
      InstallStepResult.fail ("npm install local package failed: " ++ r.2.2 ++ "\n" ++ r.2.1)
    else InstallStepResult.ok

/-- The Python local-package step: glob dist/python for .whl files, same
structure as the TypeScript step. -/
def whl_install_step (dist_python_dir : String) (whl_files : List String)
    (run : List String → Int × String × String) : InstallStepResult :=
  if whl_files.isEmpty then
    InstallStepResult.fail ("No .whl files found in " ++ dist_python_dir)
  else
    let r := run (["pip", "install"] ++ whl_files)
    if r.1 ≠ 0 then
      InstallStepResult.fail ("pip install local package failed: " ++ r.2.2 ++ "\n" ++ r.2.1)
    else InstallStepResult.ok

/-! ## Template location in synth_example (test-examples.py lines 195 to 218) -/

inductive ReadResult where
  | ok (contents : String)
  | readError (message : String)
deriving DecidableEq

/-- Source translation of the template-location tail of synth_example: the
glob results are passed in the order the filesystem enumerates them (the
source applies no sorting); the first match of the flat glob is used, the
recursive glob only as a fallback when the flat glob is empty. -/
def locate_template (cdk_out_exists : Bool)
    (glob_matches rglob_matches : List (String × ReadResult)) :
    Bool × Option String × String :=
  if !cdk_out_exists then (false, none, "cdk.out directory not found")
  else
    let template_files := if glob_matches.isEmpty then rglob_matches else glob_matches
    match template_files with
    | [] => (false, none, "No template.json file found in cdk.out")
    | (_, ReadResult.ok contents) :: _ => (true, some contents, "")
    | (_, ReadResult.readError msg) :: _ => (false, none, "Failed to read template: " ++ msg)

def pathLe : String × ReadResult → String × ReadResult → Prop := fun a b => strLe a.1 b.1 = true

instance : DecidableRel pathLe := fun a b => inferInstanceAs (Decidable (strLe a.1 b.1 = true))

/-- Modelled from the spec: the selection rule the specification describes,
namely the candidate that is first in sorted order of the file paths. -/
def spec_sorted_first_template (candidates : List (String × ReadResult)) :
    Option (String × ReadResult) :=
  (candidates.insertionSort pathLe).head?

/-! ## Deployment lifecycle (test-examples.py lines 241 to 314 and 563 to 589) -/

inductive DeployProcOutcome where
  | ran (returncode : Int) (output : String)
  | raised (message : String)

def deploy_example : DeployProcOutcome → Bool × String
  | DeployProcOutcome.ran rc output =>
    if rc ≠ 0 then (false, "cdk deploy failed:\n" ++ output) else (true, "")
  | DeployProcOutcome.raised msg => (false, "Deployment error: " ++ msg)

def destroy_example : DeployProcOutcome → Bool × String
  | DeployProcOutcome.ran rc output =>
    if rc ≠ 0 then (false, "cdk destroy failed:\n" ++ output) else (true, "")
  | DeployProcOutcome.raised msg => (false, "Destruction error: " ++ msg)

structure LifecycleRecord where
  deployed : Bool
  destroyed : Bool
  deploy_error : Option String
  destroy_error : Option String
  destroy_attempted : Bool
deriving DecidableEq

/-- Source translation of the per-example lifecycle loop body (lines 567 to
589): a failed deploy records the error and skips the destroy entirely
(the loop continues with the next example); a failed destroy after a
successful deploy records only the destroy error. -/
def lifecycle_example (deployProc destroyProc : DeployProcOutcome) : LifecycleRecord :=
  let dep := deploy_example deployProc
  if !dep.1 then
    { deployed := false, destroyed := false, deploy_error := some dep.2,
      destroy_error := none, destroy_attempted := false }
  else
    let des := destroy_example destroyProc
    if !des.1 then
      { deployed := true, destroyed := false, deploy_error := none,
        destroy_error := some des.2, destroy_attempted := true }
    else
      { deployed := true, destroyed := true, deploy_error := none,
        destroy_error := none, destroy_attempted := true }

/-- The last path component, as Path(example).name computes it. -/
def pathName (p : String) : String := String.mk ((p.data.splitOn '/').getLastD [])

/-- The lifecycle candidates (line 565): TypeScript examples whose name has
an entry in the ts_templates dict, in the ts_examples list order. -/
def successful_ts_examples (ts_examples : List String)
    (ts_templates : List (String × String)) : List String :=
  ts_examples.filter (fun ex => (ts_templates.lookup (pathName ex)).isSome)

/-! ## Comparison phase and final exit decision
(test-examples.py lines 520 to 547 and 605 to 646) -/

inductive CompareEvent where
  | noTsTemplate (name : String)
  | noPyTemplate (name : String)
  | matched (name : String)
  | mismatched (name : String) (diff : String)
deriving DecidableEq

def compareEventName : CompareEvent → String
  | CompareEvent.noTsTemplate n => n
  | CompareEvent.noPyTemplate n => n
  | CompareEvent.matched n => n
  | CompareEvent.mismatched n _ => n

/-- Source translation of the phase-2 loop: example_names is a Python set,
so the loop runs in the set's iteration order, which is passed here as the
list example_names_iter; the first component collects the console events
in processing order, the second collects comparison_errors. -/
def compare_phase (example_names_iter : List String)
    (ts_templates py_templates : List (String × String)) :
    List CompareEvent × List (String × String) :=
  match example_names_iter with
  | [] => ([], [])
  | name :: rest =>
    let tail := compare_phase rest ts_templates py_templates
    match ts_templates.lookup name with
    | none => (CompareEvent.noTsTemplate name :: tail.1, tail.2)
    | some ts =>
      match py_templates.lookup name with
      | none => (CompareEvent.noPyTemplate name :: tail.1, tail.2)
      | some py =>
        let r := compare_templates ts py
        if r.1 then (CompareEvent.matched name :: tail.1, tail.2)
        else (CompareEvent.mismatched name r.2 :: tail.1, (name, r.2) :: tail.2)

/-- Source translation of the summary (lines 605 and 641 to 646). -/
def total_errors (synth_errors : List (String × String × String))
    (comparison_errors deploy_errors destroy_errors : List (String × String)) : Nat :=
  synth_errors.length + comparison_errors.length + deploy_errors.length + destroy_errors.length

def main_exit_code (synth_errors : List (String × String × String))
    (comparison_errors deploy_errors destroy_errors : List (String × String)) : Nat :=
  if total_errors synth_errors comparison_errors deploy_errors destroy_errors = 0 then 0 else 1

/-! ## Helper lemmas about the comparison phase -/

theorem compare_phase_skip_not_mem : ∀ (names : List String) (ts py : List (String × String))
    (name : String), (ts.lookup name = none ∨ py.lookup name = none) →
    ∀ d, (name, d) ∉ (compare_phase names ts py).2
  | [], _, _, _, _, _ => by simp [compare_phase]
  | n :: rest, ts, py, name, hskip, d => by
    have ih := compare_phase_skip_not_mem rest ts py name hskip d
    simp only [compare_phase]
    cases hts : ts.lookup n with
    | none => simpa using ih
    | some tv =>
      cases hpy : py.lookup n with
      | none => simpa using ih
      | some pv =>
        by_cases hm : (compare_templates tv pv).1
        · simp only [hm, if_true]
          simpa using ih
        · simp only [hm, if_false, Bool.false_eq_true]
          intro hmem
          rcases List.mem_cons.mp hmem with he | he
          · have hname : name = n := congrArg Prod.fst he
            rcases hskip with h' | h'
            · rw [hname] at h'
              rw [h'] at hts
              exact Option.noConfusion hts
            · rw [hname] at h'
              rw [h'] at hpy
              exact Option.noConfusion hpy
          · exact ih he

theorem compare_phase_event_names : ∀ (names : List String) (ts py : List (String × String)),
    ((compare_phase names ts py).1.map compareEventName) = names
  | [], _, _ => rfl
  | n :: rest, ts, py => by
    have ih := compare_phase_event_names rest ts py
    simp only [compare_phase]
    cases hts : ts.lookup n with
    | none => simpa [compareEventName] using ih
    | some tv =>
      cases hpy : py.lookup n with
      | none => simpa [compareEventName] using ih
      | some pv =>
        by_cases hm : (compare_templates tv pv).1
        · simp only [hm, if_true]
          simpa [compareEventName] using ih
        · simp only [hm, if_false, Bool.false_eq_true]
          simpa [compareEventName] using ih

/-! ## Claims -/

/-- C1: the orchestrator returns exit status 0 iff the synthesis-error,
comparison-mismatch, deploy-error and destroy-error lists are all empty at
the end of the run, and 1 in every other case; a comparison skipped
because one variant has no successful counterpart contributes nothing to
the comparison-error list. -/
theorem C1_exit_zero_iff_no_errors
    (synth_errors : List (String × String × String))
    (comparison_errors deploy_errors destroy_errors : List (String × String))
    (names : List String) (ts py : List (String × String)) :
    (main_exit_code synth_errors comparison_errors deploy_errors destroy_errors = 0 ↔
      synth_errors = [] ∧ comparison_errors = [] ∧ deploy_errors = [] ∧ destroy_errors = []) ∧
    (¬ (synth_errors = [] ∧ comparison_errors = [] ∧ deploy_errors = [] ∧ destroy_errors = []) →
      main_exit_code synth_errors comparison_errors deploy_errors destroy_errors = 1) ∧
    (∀ name, (ts.lookup name = none ∨ py.lookup name = none) →
      ∀ d, (name, d) ∉ (compare_phase names ts py).2) := by
  refine ⟨?_, ?_, ?_⟩
  · unfold main_exit_code total_errors
    constructor
    · intro h
      split at h
      · rename_i hz
        refine ⟨?_, ?_, ?_, ?_⟩ <;> [skip; skip; skip; skip] <;>
          first
          | exact List.eq_nil_of_length_eq_zero (by omega)
      · simp at h
    · intro ⟨h1, h2, h3, h4⟩
      rw [h1, h2, h3, h4]
      rfl
  · intro hne
    unfold main_exit_code total_errors
    split
    · rename_i hz
      exfalso
      apply hne
      refine ⟨?_, ?_, ?_, ?_⟩ <;>
        exact List.eq_nil_of_length_eq_zero (by omega)
    · rfl
  · intro name hskip d
    exact compare_phase_skip_not_mem names ts py name hskip d

/-- C1 witness: concrete instances of the exit-code equivalence and of a
skipped comparison leaving the error list untouched. -/
theorem C1_witness :
    main_exit_code [] [] [] [] = 0 ∧
    main_exit_code [("typescript/gha", "TypeScript", "boom")] [] [] [] = 1 ∧
    ("gha", "diff") ∉ (compare_phase ["gha"] [] [("gha", "t")]).2 := by
  refine ⟨?_, ?_, ?_⟩
  · exact (C1_exit_zero_iff_no_errors [] [] [] [] [] [] []).1.mpr ⟨rfl, rfl, rfl, rfl⟩
  · exact (C1_exit_zero_iff_no_errors [("typescript/gha", "TypeScript", "boom")] [] [] []
      [] [] []).2.1 (by simp)
  · exact (C1_exit_zero_iff_no_errors [] [] [] [] ["gha"] [] [("gha", "t")]).2.2 "gha"
      (Or.inl rfl) "diff"

/-- C2 counterexample: a failure to even start the process is returned
through the very same (exit code, stdout, stderr) triple as a process
that ran and exited non-zero — the two outcomes are indistinguishable, so
the failure is not surfaced as a distinct error. -/
theorem C2_counterexample :
    run_command (ProcOutcome.startFailure "No such file or directory: cdk") true =
      run_command (ProcOutcome.completed 1 "" "No such file or directory: cdk") true ∧
    run_command (ProcOutcome.startFailure "No such file or directory: cdk") true =
      (1, "", "No such file or directory: cdk") :=
  ⟨rfl, rfl⟩

/-- C2 (amended): a failure to start the process is caught by the broad
exception handler and returned through the ordinary result channel as
exit code 1, empty stdout, and the stringified exception as stderr. -/
theorem C2_start_failure_merged (msg : String) (capture_output : Bool) :
    run_command (ProcOutcome.startFailure msg) capture_output = (1, "", msg) := rfl

/-- C3 counterexample: with two artifact files matched by the glob, both
install steps succeed (the source passes every matched file to the
installer); more than one match is not an error, refuting the
exactly-one requirement. -/
theorem C3_counterexample :
    tgz_install_step "/usr/bin/npm" "dist/js" ["a.tgz", "b.tgz"] (fun _ => (0, "", "")) =
      InstallStepResult.ok ∧
    whl_install_step "dist/python" ["a.whl", "b.whl"] (fun _ => (0, "", "")) =
      InstallStepResult.ok := by
  constructor <;> rfl

/-- C3 (amended): the local-artifact step fails when the glob matches zero
files; when one or more files match, all of them are passed to one
installer invocation and the step succeeds iff that invocation exits 0. -/
theorem C3_install_step_zero_match_only
    (npm_path dist_js dist_python : String) (tgz_files whl_files : List String)
    (run : List String → Int × String × String) :
    (tgz_install_step npm_path dist_js tgz_files run = InstallStepResult.ok ↔
      tgz_files ≠ [] ∧ (run ([npm_path, "install", "--no-save"] ++ tgz_files)).1 = 0) ∧
    (whl_install_step dist_python whl_files run = InstallStepResult.ok ↔
      whl_files ≠ [] ∧ (run (["pip", "install"] ++ whl_files)).1 = 0) := by
  constructor
  · unfold tgz_install_step
    by_cases he : tgz_files.isEmpty
    · have : tgz_files = [] := List.isEmpty_iff.mp he
      simp [he, this]
    · have hne : tgz_files ≠ [] := fun h => he (by rw [h]; rfl)
      by_cases hc : (run ([npm_path, "install", "--no-save"] ++ tgz_files)).1 = 0
      · simp [he, hc, hne]
      · simp [he, hc]
        intro hz
        exact absurd hz hc
  · unfold whl_install_step
    by_cases he : whl_files.isEmpty
    · have : whl_files = [] := List.isEmpty_iff.mp he
      simp [he, this]
    · have hne : whl_files ≠ [] := fun h => he (by rw [h]; rfl)
      by_cases hc : (run (["pip", "install"] ++ whl_files)).1 = 0
      · simp [he, hc, hne]
      · simp [he, hc]
        intro hz
        exact absurd hz hc

/-- C3 witness for the amended statement at concrete inputs. -/
theorem C3_install_step_witness :
    tgz_install_step "/usr/bin/npm" "dist/js" ["pkg.tgz"] (fun _ => (0, "out", "")) =
      InstallStepResult.ok := by
  exact (C3_install_step_zero_match_only "/usr/bin/npm" "dist/js" "dist/python"
    ["pkg.tgz"] ["pkg.whl"] (fun _ => (0, "out", ""))).1.mpr ⟨by decide, rfl⟩

/-- C4 counterexample: with the glob enumerating b.template.json before
a.template.json, the source returns the contents of b.template.json (the
first in enumeration order), while the first in sorted order of the
candidate paths is a.template.json with different contents. -/
theorem C4_counterexample :
    locate_template true
      [("b.template.json", ReadResult.ok "B"), ("a.template.json", ReadResult.ok "A")] [] =
      (true, some "B", "") ∧
    spec_sorted_first_template
      [("b.template.json", ReadResult.ok "B"), ("a.template.json", ReadResult.ok "A")] =
      some ("a.template.json", ReadResult.ok "A") ∧
    ("B" : String) ≠ "A" := by
  refine ⟨rfl, rfl, by decide⟩

/-- C4 (amended): synth_example returns the contents of the first
candidate in the order the glob enumerates the directory (with the
recursive glob only as fallback for an empty flat glob); no sorting is
applied to the candidates. -/
theorem C4_first_enumerated_template (p contents : String)
    (rest rglob : List (String × ReadResult)) :
    locate_template true ((p, ReadResult.ok contents) :: rest) rglob =
      (true, some contents, "") ∧
    locate_template true [] ((p, ReadResult.ok contents) :: rest) =
      (true, some contents, "") := by
  constructor <;> rfl

/-- C5 counterexample: the comparison phase iterates the Python set of
example names in the set's own iteration order; for the set containing
gha-a and gha-b, the iteration order gha-b, gha-a is possible, and the
phase then processes and reports the examples in that non-sorted
sequence. -/
theorem C5_counterexample :
    ((compare_phase ["gha-b", "gha-a"] [("gha-a", "t"), ("gha-b", "t")]
        [("gha-a", "t"), ("gha-b", "t")]).1.map compareEventName) = ["gha-b", "gha-a"] ∧
    sortedStrings ["gha-b", "gha-a"] = ["gha-a", "gha-b"] ∧
    (["gha-b", "gha-a"] : List String) ≠ ["gha-a", "gha-b"] := by
  refine ⟨rfl, rfl, by decide⟩

/-- C5 (amended): discovery returns each variant's examples in sorted
order, the synthesis loops and the lifecycle candidate list follow that
sorted order (filtering preserves it), but the comparison phase processes
the example-name set in the set's iteration order, which is whatever
order the set yields and not necessarily sorted. -/
theorem C5_phase_orders (tsDir pyDir : Option (List DirEntry))
    (filter_names : Option (List String)) (tmpl : List (String × String))
    (iter : List String) (ts py : List (String × String)) :
    List.Sorted strLeRel (find_examples tsDir pyDir filter_names).1 ∧
    List.Sorted strLeRel (find_examples tsDir pyDir filter_names).2 ∧
    List.Sorted strLeRel
      (successful_ts_examples (find_examples tsDir pyDir filter_names).1 tmpl) ∧
    ((compare_phase iter ts py).1.map compareEventName) = iter := by
  refine ⟨sortedStrings_sorted _, sortedStrings_sorted _, ?_, compare_phase_event_names iter ts py⟩
  exact (sortedStrings_sorted _).filter _

/-- C6: in the lifecycle phase, a non-zero deploy exit records
deployed := false with the deploy error taken from the buffered output and
the destroy step is never attempted; a destroy failure after a successful
deploy records destroyed := false with the destroy error while deployed
remains true. -/
theorem C6_lifecycle_order (dp dsp : DeployProcOutcome) :
    (∀ rc output, dp = DeployProcOutcome.ran rc output → rc ≠ 0 →
      lifecycle_example dp dsp =
        { deployed := false, destroyed := false,
          deploy_error := some ("cdk deploy failed:\n" ++ output),
          destroy_error := none, destroy_attempted := false }) ∧
    ((deploy_example dp).1 = true → (destroy_example dsp).1 = false →
      lifecycle_example dp dsp =
        { deployed := true, destroyed := false, deploy_error := none,
          destroy_error := some (destroy_example dsp).2, destroy_attempted := true }) := by
  constructor
  · intro rc output hdp hrc
    subst hdp
    simp [lifecycle_example, deploy_example, hrc]
  · intro hdep hdes
    simp [lifecycle_example, hdep, hdes]

/-- C6 witness: a failed deploy skips the destroy; a failed destroy after
a successful deploy leaves the deploy outcome intact. -/
theorem C6_witness :
    lifecycle_example (DeployProcOutcome.ran 1 "rollback") (DeployProcOutcome.ran 0 "") =
      { deployed := false, destroyed := false,
        deploy_error := some ("cdk deploy failed:\nrollback"), destroy_error := none,
        destroy_attempted := false } ∧
    lifecycle_example (DeployProcOutcome.ran 0 "") (DeployProcOutcome.ran 1 "stuck") =
      { deployed := true, destroyed := false, deploy_error := none,
        destroy_error := some ("cdk destroy failed:\nstuck"), destroy_attempted := true } := by
  constructor
  · exact (C6_lifecycle_order (DeployProcOutcome.ran 1 "rollback")
      (DeployProcOutcome.ran 0 "")).1 1 "rollback" rfl (by decide)
  · exact (C6_lifecycle_order (DeployProcOutcome.ran 0 "")
      (DeployProcOutcome.ran 1 "stuck")).2 rfl rfl

/-- C7: key-reordering invariance — for every parseable document and every
document equal to it except for a permutation of object keys at any or
every nesting level, compare_templates reports a match with an empty
diff. -/
theorem C7_compare_key_reordering (D E : String) (v w : Json)
    (hD : loads D = some v) (hE : loads E = some w) (hperm : KeyPerm v w) :
    compare_templates D E = (true, "") := by
  have hnorm := normalize_keyPerm hD hE hperm
  simp [compare_templates, hnorm]

/-- C7 witness: two concrete documents differing only in the order of two
object keys compare as matched with an empty diff. -/
theorem C7_witness :
    compare_templates "\x7b\"b\": 1, \"a\": true\x7d" "\x7b\"a\": true, \"b\": 1\x7d" =
      (true, "") := by
  apply C7_compare_key_reordering _ _
    (Json.obj (JsonObj.cons "b" (Json.num 1) (JsonObj.cons "a" (Json.bool true) JsonObj.nil)))
    (Json.obj (JsonObj.cons "a" (Json.bool true) (JsonObj.cons "b" (Json.num 1) JsonObj.nil)))
  · rfl
  · rfl
  · refine KeyPerm.obj _ [("b", Json.num 1), ("a", Json.bool true)] _
      (KeyPermFields.cons "b" _ _ _ _ (KeyPerm.num 1)
        (KeyPermFields.cons "a" _ _ _ _ (KeyPerm.bool true) KeyPermFields.nil)) ?_
    exact List.Perm.swap ("a", Json.bool true) ("b", Json.num 1) []

/-- C8: canonicalization is idempotent — for every input string,
normalizing twice yields the same text as normalizing once; in particular
an already-canonical document is returned unchanged. -/
theorem C8_normalize_json_idempotent (s : String) :
    normalize_json (normalize_json s) = normalize_json s :=
  normalize_json_idem s

/-- C9: a filter list whose names match no example directory of either
variant makes discovery return two empty example lists, and the run then
stops through the no-examples branch with exit status 1 (the discovery
and abort functions are total, so no exception is involved). -/
theorem C9_unknown_filter_aborts (filter_names : List String)
    (tsEntries pyEntries : List DirEntry)
    (h : ∀ e, (e ∈ tsEntries ∨ e ∈ pyEntries) → filter_names.contains e.name = false) :
    (find_examples (some tsEntries) (some pyEntries) (some filter_names)).1 = [] ∧
    (find_examples (some tsEntries) (some pyEntries) (some filter_names)).2 = [] ∧
    no_examples_abort
      (find_examples (some tsEntries) (some pyEntries) (some filter_names)).1
      (find_examples (some tsEntries) (some pyEntries) (some filter_names)).2 = some 1 := by
  have hts : langExamples "typescript" tsEntries (some filter_names) = [] := by
    unfold langExamples
    have hfil : tsEntries.filter (entryQualifies (some filter_names)) = [] := by
      rw [List.filter_eq_nil]
      intro e he hq
      have hc := h e (Or.inl he)
      simp [entryQualifies] at hq
      simp at hc
      exact hc hq.1.2
    rw [hfil]
    rfl
  have hpy : langExamples "python" pyEntries (some filter_names) = [] := by
    unfold langExamples
    have hfil : pyEntries.filter (entryQualifies (some filter_names)) = [] := by
      rw [List.filter_eq_nil]
      intro e he hq
      have hc := h e (Or.inr he)
      simp [entryQualifies] at hq
      simp at hc
      exact hc hq.1.2
    rw [hfil]
    rfl
  have hfe : find_examples (some tsEntries) (some pyEntries) (some filter_names) = ([], []) := by
    simp [find_examples, hts, hpy, sortedStrings]
  refine ⟨?_, ?_, ?_⟩ <;> rw [hfe] <;> rfl

/-- C9 witness: a concrete unknown filter name against one existing
example directory per variant. -/
theorem C9_witness :
    (find_examples (some [⟨"gha", true, true⟩]) (some [⟨"gha", true, true⟩])
      (some ["no-such-example"])).1 = [] ∧
    (find_examples (some [⟨"gha", true, true⟩]) (some [⟨"gha", true, true⟩])
      (some ["no-such-example"])).2 = [] ∧
    no_examples_abort
      (find_examples (some [⟨"gha", true, true⟩]) (some [⟨"gha", true, true⟩])
        (some ["no-such-example"])).1
      (find_examples (some [⟨"gha", true, true⟩]) (some [⟨"gha", true, true⟩])
        (some ["no-such-example"])).2 = some 1 := by
  exact C9_unknown_filter_aborts ["no-such-example"] [⟨"gha", true, true⟩] [⟨"gha", true, true⟩]
    (by intro e he; rcases he with h' | h' <;> simp at h' <;> rw [h'] <;> decide)

/-- C10: with the cdk executable missing, the module-level guard does not
reach its intended colored-message-and-exit branch; the call to
print_colored raises a NameError because neither print_colored nor Colors
is defined at that point of the module body (they are defined on lines 44
and 54, after the guard on lines 28 to 31). -/
theorem C10_missing_cdk_name_error :
    module_tool_checks none (some "/usr/bin/npm") (some "/usr/bin/yarn") =
      GuardOutcome.nameError "print_colored" ∧
    module_tool_checks none (some "/usr/bin/npm") (some "/usr/bin/yarn") ≠
      GuardOutcome.exited 1 := by
  constructor
  · rfl
  · decide

end TestExamples
